import Mathlib

/-!
A shallow embedding of `src/hash_map.h` (namespace `rstd`): a fixed-bucket
separate-chaining hash map from `int32_t` keys to heap-allocated values.

Nodes live in an explicit heap (association list from addresses to nodes) so
that the source's manual memory management — including the recursive node
destructor `~hash_map_ll_node` that deletes `childNode` — is modelled exactly.
Operations that would dereference a freed or null pointer in C++ (undefined
behavior) return `none`.  All loops carry explicit fuel, always called with
`store.length + 1`, which exceeds any acyclic chain length.
-/

namespace Rstd

/-- Modulus of `uint32_t` arithmetic. -/
def U32 : Nat := 2 ^ 32

/-- The linked-list node `rstd::rstd_support::hash_map_ll_node<T>`.
`dataPointer` holds the owned value (the separately allocated `T` object);
`parentNode` and `childNode` hold the address of the parent and child node,
`none` standing for `nullptr`. -/
structure Node (α : Type) where
  rawKey : Int
  dataPointer : α
  parentNode : Option Nat
  childNode : Option Nat
deriving Repr, DecidableEq

/-- The heap: allocated nodes, addressed by `Nat`, plus the next fresh
address.  An address absent from `store` is unallocated (or freed). -/
structure Heap (α : Type) where
  store : List (Nat × Node α)
  nextAddr : Nat
deriving Repr, DecidableEq

namespace Heap

/-- The empty heap. -/
def empty (α : Type) : Heap α := ⟨[], 0⟩

/-- Dereference an address; `none` when the address is not allocated. -/
def lookup (h : Heap α) (a : Nat) : Option (Node α) :=
  (h.store.find? fun p => p.1 == a).map Prod.snd

/-- Allocate a new node, returning its address and the grown heap. -/
def alloc (h : Heap α) (n : Node α) : Nat × Heap α :=
  (h.nextAddr, ⟨(h.nextAddr, n) :: h.store, h.nextAddr + 1⟩)

/-- Overwrite the fields of the node at an address (no-op when absent). -/
def modify (h : Heap α) (a : Nat) (f : Node α → Node α) : Heap α :=
  ⟨h.store.map fun p => if p.1 = a then (p.1, f p.2) else p, h.nextAddr⟩

/-- Deallocate the node at an address. -/
def dealloc (h : Heap α) (a : Nat) : Heap α :=
  ⟨h.store.filter fun p => p.1 ≠ a, h.nextAddr⟩

end Heap

/-- The destructor `~hash_map_ll_node`, applied to a node pointer by
`delete`: `delete dataPointer; delete childNode;` — it frees the owned value
and then recursively destroys the whole child chain.  `delete nullptr` is a
no-op; `delete` of an unallocated address is undefined behavior (`none`). -/
def destroyNode {α : Type} : Nat → Heap α → Option Nat → Option (Heap α)
  | _, h, none => some h
  | 0, _, some _ => none
  | fuel + 1, h, some a =>
    match h.lookup a with
    | none => none
    | some n => destroyNode fuel (h.dealloc a) n.childNode

/-- The map object `rstd::hash_map<T>`: the private fields `_hashIndices`,
`_elementCount` and the bucket array `_heads` (a list of `_hashIndices`
bucket-head pointers), together with the heap holding its nodes. -/
structure hash_map (α : Type) where
  hashIndices : Nat
  elementCount : Nat
  heads : List (Option Nat)
  heap : Heap α
deriving Repr, DecidableEq

/-- The five or-shift bit-smearing steps of the constructor body,
`x |= x >> 1; x |= x >> 2; x |= x >> 4; x |= x >> 8; x |= x >> 16;`. -/
def smear32 (x0 : Nat) : Nat :=
  let x1 := x0 ||| x0 >>> 1
  let x2 := x1 ||| x1 >>> 2
  let x3 := x2 ||| x2 >>> 4
  let x4 := x3 ||| x3 >>> 8
  let x5 := x4 ||| x4 >>> 16
  x5

/-- The body of the constructor `hash_map(uint32_t storageSize = 256)`:
`storageSize - 1` with `uint32_t` wraparound, the bit-smearing steps, the
increment (again with wraparound), and the floor of 256 when the computed
value is 0. -/
def initIndices (storageSize : Nat) : Nat :=
  let r := (smear32 ((storageSize + (U32 - 1)) % U32) + 1) % U32
  if r = 0 then 256 else r

/-- The constructor `hash_map(uint32_t storageSize = 256)`: compute
`_hashIndices`, allocate the `_heads` array and zero it (`memsetHeads`). -/
def newMap (α : Type) (storageSize : Nat := 256) : hash_map α :=
  ⟨initIndices storageSize, 0, List.replicate (initIndices storageSize) none, Heap.empty α⟩

namespace hash_map

/-- The two's-complement `uint32_t` bit pattern of an `int32_t` value, as the
conversion in `rawKey & ( _hashIndices - 1 )` produces it. -/
def toBits (rawKey : Int) : Nat := (rawKey % (U32 : Int)).toNat

/-- The private hash `hashThis`: the key's bit pattern masked with
`_hashIndices - 1` (`uint32_t` subtraction). -/
def hashThis (m : hash_map α) (rawKey : Int) : Nat :=
  toBits rawKey &&& ((m.hashIndices + (U32 - 1)) % U32)

/-- The query `size()`: returns `_elementCount`. -/
def size (m : hash_map α) : Nat := m.elementCount

/-- The query `empty()`: `_elementCount == 0`. -/
def empty (m : hash_map α) : Bool := m.elementCount == 0

/-- The query `bucketCount()`: returns `_hashIndices`. -/
def bucketCount (m : hash_map α) : Nat := m.hashIndices

/-- The do-while loop of `operator[]`: walk the chain from `cur`; on a key
match return the address of the matching node (whose `dataPointer` the C++
returns by reference); at the tail, append a freshly allocated node holding a
default-constructed value and increment `_elementCount`. -/
def accessLoop [Inhabited α] : Nat → hash_map α → Int → Nat → Option (Nat × hash_map α)
  | 0, _, _, _ => none
  | fuel + 1, m, rawKey, cur =>
    match m.heap.lookup cur with
    | none => none
    | some n =>
      if n.rawKey = rawKey then
        some (cur, m)
      else
        match n.childNode with
        | some c => accessLoop fuel m rawKey c
        | none =>
          let p := m.heap.alloc ⟨rawKey, default, some cur, none⟩
          some (p.1, { m with
            heap := p.2.modify cur fun nd => { nd with childNode := some p.1 },
            elementCount := (m.elementCount + 1) % U32 })

/-- The accessor `operator[](int32_t rawKey)`: hash the key; an empty bucket
gets a fresh head node with a default-constructed value (incrementing
`_elementCount`); otherwise the chain is walked by `accessLoop`.  Returns the
address of the node whose value the C++ returns by reference. -/
def getOrInsert [Inhabited α] (m : hash_map α) (rawKey : Int) : Option (Nat × hash_map α) :=
  let hashedKey := m.hashThis rawKey
  match m.heads[hashedKey]? with
  | none => none
  | some none =>
    let p := m.heap.alloc ⟨rawKey, default, none, none⟩
    some (p.1, { m with
      heap := p.2,
      heads := m.heads.set hashedKey (some p.1),
      elementCount := (m.elementCount + 1) % U32 })
  | some (some headAddr) => accessLoop (m.heap.store.length + 1) m rawKey headAddr

/-- Read the value a reference returned by `operator[]` currently denotes. -/
def valueAt (m : hash_map α) (a : Nat) : Option α :=
  (m.heap.lookup a).map Node.dataPointer

/-- Assign through the reference returned by `operator[]`: the statement
`m[rawKey] = v`. -/
def setVal [Inhabited α] (m : hash_map α) (rawKey : Int) (v : α) : Option (hash_map α) :=
  (m.getOrInsert rawKey).map fun p =>
    { p.2 with heap := p.2.heap.modify p.1 fun nd => { nd with dataPointer := v } }

/-- The do-while loop of `erase`: walk the chain from `cur`; on a key match,
splice — the head case rewrites the bucket slot, the non-head case rewrites
the parent's `childNode` — and then `delete curNode` (the recursive
destructor).  `_elementCount` is not touched. -/
def eraseLoop : Nat → hash_map α → Int → Nat → Nat → Option (hash_map α)
  | 0, _, _, _, _ => none
  | fuel + 1, m, rawKey, hashedKey, cur =>
    match m.heap.lookup cur with
    | none => none
    | some n =>
      if n.rawKey = rawKey then
        (match n.parentNode with
          | none => some { m with heads := m.heads.set hashedKey n.childNode }
          | some par =>
            match m.heap.lookup par with
            | none => none
            | some _ => some { m with
                heap := m.heap.modify par fun nd => { nd with childNode := n.childNode } }
          ).bind fun m1 =>
            (destroyNode (m1.heap.store.length + 1) m1.heap (some cur)).map
              fun h2 => { m1 with heap := h2 }
      else
        match n.childNode with
        | none => some m
        | some c => eraseLoop fuel m rawKey hashedKey c

/-- The operation `erase(int32_t rawKey)`: hash the key; an empty bucket is a
no-op; otherwise the chain is walked by `eraseLoop`. -/
def eraseKey (m : hash_map α) (rawKey : Int) : Option (hash_map α) :=
  let hashedKey := m.hashThis rawKey
  match m.heads[hashedKey]? with
  | none => none
  | some none => some m
  | some (some headAddr) => eraseLoop (m.heap.store.length + 1) m rawKey hashedKey headAddr

/-- The while loop of `clear` for one bucket: read `toDelete->childNode`,
`delete toDelete` (recursive destructor), continue from the saved child —
which the destructor has just freed whenever it was non-null. -/
def clearBucket {α : Type} : Nat → Heap α → Option Nat → Option (Heap α)
  | _, h, none => some h
  | 0, _, some _ => none
  | fuel + 1, h, some a =>
    match h.lookup a with
    | none => none
    | some n =>
      match destroyNode (h.store.length + 1) h (some a) with
      | none => none
      | some h2 => clearBucket fuel h2 n.childNode

/-- The bucket iteration of `clear` over the listed bucket heads. -/
def clearHeap {α : Type} : List (Option Nat) → Heap α → Option (Heap α)
  | [], h => some h
  | b :: rest, h => (clearBucket (h.store.length + 1) h b).bind (clearHeap rest)

/-- The operation `clear()`: destroy every bucket's chain, then zero the
`_heads` array (`memsetHeads`).  `_elementCount` is not touched. -/
def clear (m : hash_map α) : Option (hash_map α) :=
  (clearHeap m.heads m.heap).map fun h =>
    { m with heap := h, heads := List.replicate m.hashIndices none }

/-- The while loop of `bucketDensity`: count the nodes of a chain. -/
def densityLoop {α : Type} : Nat → Heap α → Option Nat → Option Nat
  | _, _, none => some 0
  | 0, _, some _ => none
  | fuel + 1, h, some a =>
    match h.lookup a with
    | none => none
    | some n => (densityLoop fuel h n.childNode).map (· + 1)

/-- The query `bucketDensity(int32_t rawKey)`: the length of the chain rooted
at the key's bucket. -/
def bucketDensity (m : hash_map α) (rawKey : Int) : Option Nat :=
  (m.heads[m.hashThis rawKey]?).bind fun b =>
    densityLoop (m.heap.store.length + 1) m.heap b

end hash_map

/-- The free function `rstd::swap`: exchange `_hashIndices`, `_elementCount`
and `_heads` (the heap of nodes travels with the bucket array it anchors). -/
def swapMaps (map1 map2 : hash_map α) : hash_map α × hash_map α :=
  (⟨map2.hashIndices, map2.elementCount, map2.heads, map2.heap⟩,
   ⟨map1.hashIndices, map1.elementCount, map1.heads, map1.heap⟩)

/-- A `hash_map` object as its non-delegating member initializers leave it
before any constructor body runs: `_hashIndices = 0`, `_elementCount = 0`,
`_heads = nullptr`. -/
def zeroMap (α : Type) : hash_map α := ⟨0, 0, [], Heap.empty α⟩

/-- The move constructor `hash_map(hash_map&& other)`: swap the
member-initialized (zeroed) `*this` with `other`.  First component: the new
object; second: what the move leaves in `other`. -/
def moveCtor (other : hash_map α) : hash_map α × hash_map α :=
  swapMaps (zeroMap α) other

/-- The move assignment `operator=(hash_map&& other)`: `swap(*this, other)`.
First component: the assigned-to object; second: what is left in `other`. -/
def moveAssign (self other : hash_map α) : hash_map α × hash_map α :=
  swapMaps self other

/-- The copy constructor of `hash_map_ll_node`: clone the key, copy-construct
a fresh value from `other.dataPointer`, set `parentNode` to the given parent,
and recursively copy-construct the child chain with `this` as parent.  Reads
the source heap, allocates in the destination heap; returns the clone's
address. -/
def cloneNode {α : Type} : Nat → Heap α → Nat → Option Nat → Heap α → Option (Nat × Heap α)
  | 0, _, _, _, _ => none
  | fuel + 1, src, a, parent, dst =>
    match src.lookup a with
    | none => none
    | some n =>
      let p := dst.alloc ⟨n.rawKey, n.dataPointer, parent, none⟩
      match n.childNode with
      | none => some p
      | some c =>
        (cloneNode fuel src c (some p.1) p.2).map fun q =>
          (p.1, q.2.modify p.1 fun nd => { nd with childNode := some q.1 })

/-- The bucket loop of the copy constructor: for each `i < _hashIndices` of
the freshly delegated-to object, clone the source's chain at bucket `i` when
it is non-empty. -/
def copyLoop (other : hash_map α) : Nat → hash_map α → Option (hash_map α)
  | 0, acc => some acc
  | i + 1, acc =>
    (copyLoop other i acc).bind fun acc1 =>
      match other.heads[i]? with
      | none => none
      | some none => some acc1
      | some (some a) =>
        (cloneNode (other.heap.store.length + 1) other.heap a none acc1.heap).map
          fun q => { acc1 with heap := q.2, heads := acc1.heads.set i (some q.1) }

/-- The copy constructor `hash_map(const hash_map& other)`: delegate to
`hash_map(other._hashIndices)` — which recomputes `_hashIndices` and leaves
`_elementCount` at its member-initialized 0 — then clone every non-empty
bucket of `other`. -/
def copyCtor (other : hash_map α) : Option (hash_map α) :=
  copyLoop other (initIndices other.hashIndices) (newMap α other.hashIndices)

/-- The copy assignment `operator=(const hash_map& other)` for distinct
objects: copy-construct a temporary, then `swap(*this, temp)`; the observable
assigned-to object is the first component of that swap. -/
def copyAssign (self other : hash_map α) : Option (hash_map α) :=
  (copyCtor other).map fun temp => (swapMaps self temp).1

/-- The raw two's-complement `uint32_t` bit pattern of a 32-bit signed value,
as the spec's raw-bit-pattern hashing policy describes it: nonnegative keys
are their own pattern, a negative key `k` becomes `2^32 - |k|`. -/
def twosComplement (k : Int) : Nat :=
  if 0 ≤ k then k.toNat else U32 - (-k).toNat

/-- A fresh `hash_map` constructed with the default capacity 256, mapping to `unsigned` values. -/
def map256 : hash_map Nat := newMap Nat 256

/-- The state after `map256[1]`: the single entry `1 ↦ 0` at node address 0. -/
def mapA : hash_map Nat := ((map256.getOrInsert 1).map Prod.snd).getD map256

/-- The state after `mapA.erase(1)`. -/
def mapAE : hash_map Nat := (mapA.eraseKey 1).getD map256

/-- The state after re-running `mapAE[1]`. -/
def mapAR : hash_map Nat := ((mapAE.getOrInsert 1).map Prod.snd).getD map256

/-- The state after `mapA[257] = 42`: keys 1 and 257 chained in bucket 1. -/
def mapB : hash_map Nat := (mapA.setVal 257 42).getD map256

/-- The state after `mapB.erase(1)`. -/
def mapBE : hash_map Nat := (mapB.eraseKey 1).getD map256

/-- The state after `mapB[513] = 7`: keys 1, 257, 513 chained in bucket 1 at node addresses 0, 1, 2. -/
def mapC : hash_map Nat := (mapB.setVal 513 7).getD map256

/-- The state after `mapC.erase(257)` (erasing the middle node of the chain). -/
def mapCE : hash_map Nat := (mapC.eraseKey 257).getD map256

/-- The state after `mapA.clear()`. -/
def mapAC : hash_map Nat := (mapA.clear).getD map256

/-- The state after `map256[2]`: the single entry `2 ↦ 0`, in bucket 2. -/
def mapD : hash_map Nat := ((map256.getOrInsert 2).map Prod.snd).getD map256

/-- The copy-constructed clone of `mapB`. -/
def mapBCopy : hash_map Nat := (copyCtor mapB).getD map256

/-- Ghost specification apparatus (not part of the C++ source): walk a chain
from a pointer, collecting each node's address and contents; `none` when the
walk dereferences an unallocated address or runs out of fuel (a cycle). -/
def chainList {α : Type} : Nat → Heap α → Option Nat → Option (List (Nat × Node α))
  | _, _, none => some []
  | 0, _, some _ => none
  | fuel + 1, h, some a =>
    match h.lookup a with
    | none => none
    | some n => (chainList fuel h n.childNode).map ((a, n) :: ·)

/-- Ghost specification: `ChainSeg h o l e` says that following `childNode`
links from pointer `o` passes exactly through the (address, node) pairs of
`l` and then reaches the pointer `e`.  A whole bucket chain is a segment
ending in `none`. -/
inductive ChainSeg {α : Type} (h : Heap α) : Option Nat → List (Nat × Node α) → Option Nat → Prop
  | nil (o : Option Nat) : ChainSeg h o [] o
  | cons (a : Nat) (n : Node α) (l : List (Nat × Node α)) (e : Option Nat) :
      h.lookup a = some n → ChainSeg h n.childNode l e →
      ChainSeg h (some a) ((a, n) :: l) e

/-- Check that the `parentNode` back-references along a chain list point to
the respective predecessor (`none` for the bucket head). -/
def parentsOK {α : Type} : Option Nat → List (Nat × Node α) → Bool
  | _, [] => true
  | par, (a, n) :: rest => (n.parentNode == par) && parentsOK (some a) rest

/-- Executable well-formedness of one bucket: its chain walk terminates, the
node addresses and keys are distinct, every key hashes to this bucket, and
the parent back-references are consistent. -/
def bucketOK (m : hash_map α) (i : Nat) : Bool :=
  match chainList (m.heap.store.length + 1) m.heap (m.heads.getD i none) with
  | none => false
  | some l =>
    decide ((l.map Prod.fst).Nodup) && decide ((l.map fun q => q.2.rawKey).Nodup) &&
    l.all (fun q => m.hashThis q.2.rawKey == i) && parentsOK none l

/-- Executable well-formedness of a whole map: the bucket array has length
`_hashIndices`, which is a power of two at most `2^31`; store addresses are
distinct and below `nextAddr`; and every bucket is well-formed. -/
def WFb (m : hash_map α) : Bool :=
  decide (m.heads.length = m.hashIndices) &&
  decide ((m.heap.store.map Prod.fst).Nodup) &&
  m.heap.store.all (fun q => q.1 < m.heap.nextAddr) &&
  (List.range 32).any (fun j => m.hashIndices == 2 ^ j) &&
  (List.range m.hashIndices).all (fun i => bucketOK m i)

/-- Whether the chain of `k`'s bucket currently holds a node whose key is
`k` (the executable "key is present" observation). -/
def keyInChain (m : hash_map α) (k : Int) : Bool :=
  match chainList (m.heap.store.length + 1) m.heap (m.heads.getD (m.hashThis k) none) with
  | none => false
  | some l => l.any fun q => q.2.rawKey == k

/-- The (key, value) pairs along bucket `i`, in chain order; `none` when the
chain is corrupted (dangling pointer or cycle). -/
def chainEntries (m : hash_map α) (i : Nat) : Option (List (Int × α)) :=
  (chainList (m.heap.store.length + 1) m.heap (m.heads.getD i none)).map
    (List.map fun q => (q.2.rawKey, q.2.dataPointer))

/-- The map states reachable through the public API: construction, element
access and assignment, erase, clear, copy construction, copy assignment,
swap, move assignment, and the destination of a move construction.  The
source left behind by a move construction is deliberately not included: the
amended invariant fails for it. -/
inductive Reached (α : Type) [Inhabited α] : hash_map α → Prop
  | construct (s : Nat) : Reached α (newMap α s)
  | access {m m1 : hash_map α} {k : Int} {a : Nat} :
      Reached α m → m.getOrInsert k = some (a, m1) → Reached α m1
  | assign {m m1 : hash_map α} {k : Int} {v : α} :
      Reached α m → m.setVal k v = some m1 → Reached α m1
  | eraseOp {m m1 : hash_map α} {k : Int} :
      Reached α m → m.eraseKey k = some m1 → Reached α m1
  | clearOp {m m1 : hash_map α} :
      Reached α m → m.clear = some m1 → Reached α m1
  | copy {m m1 : hash_map α} :
      Reached α m → copyCtor m = some m1 → Reached α m1
  | copyAsgn {m1 m2 m3 : hash_map α} :
      Reached α m1 → Reached α m2 → copyAssign m1 m2 = some m3 → Reached α m3
  | swapFst {m1 m2 : hash_map α} :
      Reached α m1 → Reached α m2 → Reached α (swapMaps m1 m2).1
  | swapSnd {m1 m2 : hash_map α} :
      Reached α m1 → Reached α m2 → Reached α (swapMaps m1 m2).2
  | moveDst {m : hash_map α} : Reached α m → Reached α (moveCtor m).1
  | moveAsgnFst {m1 m2 : hash_map α} :
      Reached α m1 → Reached α m2 → Reached α (moveAssign m1 m2).1
  | moveAsgnSnd {m1 m2 : hash_map α} :
      Reached α m1 → Reached α m2 → Reached α (moveAssign m1 m2).2

end Rstd

namespace Rstd

open hash_map

lemma clear_count {α : Type} {m m' : hash_map α} (h : m.clear = some m') :
    m'.elementCount = m.elementCount := by
  unfold hash_map.clear at h
  rw [Option.map_eq_some'] at h
  obtain ⟨hp, _, hm'⟩ := h
  rw [← hm']

lemma eraseLoop_count {α : Type} :
    ∀ (fuel : Nat) (m : hash_map α) (k : Int) (hk cur : Nat) (m' : hash_map α),
      eraseLoop fuel m k hk cur = some m' → m'.elementCount = m.elementCount := by
  intro fuel
  induction fuel with
  | zero => intro m k hk cur m' h; simp [eraseLoop] at h
  | succ n ih =>
    intro m k hk cur m' h
    rw [eraseLoop] at h
    cases hl : m.heap.lookup cur with
    | none => rw [hl] at h; simp at h
    | some nd =>
      rw [hl] at h
      simp only at h
      split at h
      · rw [Option.bind_eq_some] at h
        obtain ⟨m1, hm1, hdes⟩ := h
        rw [Option.map_eq_some'] at hdes
        obtain ⟨h2, _, hm'⟩ := hdes
        have hc1 : m1.elementCount = m.elementCount := by
          split at hm1
          · cases hm1; rfl
          · split at hm1
            · exact absurd hm1 (by simp)
            · cases hm1; rfl
        rw [← hm']
        exact hc1
      · cases hch : nd.childNode with
        | none => rw [hch] at h; cases h; rfl
        | some c => rw [hch] at h; exact ih m k hk c m' h

lemma eraseKey_count {α : Type} {m m' : hash_map α} {k : Int}
    (h : m.eraseKey k = some m') : m'.elementCount = m.elementCount := by
  simp only [hash_map.eraseKey] at h
  cases hh : m.heads[m.hashThis k]? with
  | none => rw [hh] at h; simp at h
  | some b =>
    rw [hh] at h
    cases b with
    | none => cases h; rfl
    | some a => exact eraseLoop_count _ m k _ a m' h

end Rstd

namespace Rstd

set_option maxRecDepth 1000000

open hash_map

/-- C1: erase removes the entry but `_elementCount` is never decremented, so
`size()` stays 1 after erasing the only key, and reinsertion raises it to 2. -/
theorem C1_erase_never_decrements_size :
    (∀ (α : Type) (m m' : hash_map α) (k : Int), m.eraseKey k = some m' → m'.size = m.size) ∧
    (mapA.size = 1 ∧
     mapA.eraseKey 1 = some mapAE ∧
     mapAE.heads[1]? = some none ∧
     mapAE.size = 1 ∧
     mapAE.getOrInsert 1 = some (1, mapAR) ∧
     mapAR.valueAt 1 = some 0 ∧
     mapAR.size = 2) :=
  ⟨fun _ _ _ _ h => eraseKey_count h, by decide⟩

theorem C1_witness : mapAE.size = mapA.size :=
  C1_erase_never_decrements_size.1 Nat mapA mapAE 1 (by decide)

/-- C2: erasing key 1 from the chain 1 → 257 destroys the node of key 257 as
well (the destructor deletes `childNode` recursively), leaving the bucket head
dangling; `bucketDensity(257)` and `get_or_insert(257)` then dereference freed
memory. -/
theorem C2_erase_frees_successor_nodes :
    mapA.setVal 257 42 = some mapB ∧
    mapB.size = 2 ∧
    mapB.bucketDensity 1 = some 2 ∧
    mapB.heap.lookup 1 = some ⟨257, 42, some 0, none⟩ ∧
    mapB.eraseKey 1 = some mapBE ∧
    mapBE.heap.lookup 1 = none ∧
    mapBE.heads[1]? = some (some 1) ∧
    mapBE.bucketDensity 257 = none ∧
    mapBE.getOrInsert 257 = none := by decide

/-- C3: clear empties every bucket but never resets `_elementCount`, so
`size()` stays 1 and `empty()` is false; on a two-node chain `clear()` even
double-frees (undefined behavior, modelled as `none`). -/
theorem C3_clear_never_resets_size :
    (∀ (α : Type) (m m' : hash_map α), m.clear = some m' → m'.size = m.size) ∧
    (mapA.clear = some mapAC ∧
     mapAC.size = 1 ∧
     mapAC.empty = false ∧
     mapAC.bucketDensity 1 = some 0 ∧
     mapB.clear = none) :=
  ⟨fun _ _ _ h => clear_count h, by decide⟩

theorem C3_witness : mapAC.size = mapA.size :=
  C3_clear_never_resets_size.1 Nat mapA mapAC (by decide)

/-- C10 counterexample: swapping the one-entry maps `mapA` and `mapD` leaves
the first argument holding `mapD`'s old state — not an emptied state. -/
theorem C10_counterexample :
    (swapMaps mapA mapD).1 = mapD ∧
    (swapMaps mapA mapD).1.empty = false ∧
    (swapMaps mapA mapD).1.size = 1 := by decide

/-- C10 amended: swap and move assignment exchange the two states exactly (no
node is copied); only move construction leaves its source zeroed. -/
theorem C10_swap_and_move_exchange_states {α : Type} :
    ∀ m1 m2 : hash_map α,
      swapMaps m1 m2 = (m2, m1) ∧
      moveAssign m1 m2 = (m2, m1) ∧
      moveCtor m1 = (m1, zeroMap α) := by
  intro m1 m2
  refine ⟨?_, ?_, ?_⟩ <;> cases m1 <;> cases m2 <;> rfl

end Rstd

namespace Rstd

lemma cover_step {x y s : Nat}
    (hy : ∀ i, y.testBit i = true ↔ ∃ j, j < s ∧ x.testBit (i + j) = true) :
    ∀ i, (y ||| y >>> s).testBit i = true ↔ ∃ j, j < s + s ∧ x.testBit (i + j) = true := by
  intro i
  rw [Nat.testBit_lor, Nat.testBit_shiftRight]
  simp only [Bool.or_eq_true]
  constructor
  · rintro (h | h)
    · obtain ⟨j, hj, hb⟩ := (hy i).1 h
      exact ⟨j, by omega, hb⟩
    · obtain ⟨j, hj, hb⟩ := (hy (s + i)).1 h
      refine ⟨s + j, by omega, ?_⟩
      rwa [show i + (s + j) = s + i + j by omega]
  · rintro ⟨j, hj, hb⟩
    by_cases hjs : j < s
    · exact Or.inl ((hy i).2 ⟨j, hjs, hb⟩)
    · refine Or.inr ((hy (s + i)).2 ⟨j - s, by omega, ?_⟩)
      rwa [show s + i + (j - s) = i + j by omega]

lemma smear32_cover (x : Nat) :
    ∀ i, (smear32 x).testBit i = true ↔ ∃ j, j < 32 ∧ x.testBit (i + j) = true := by
  have h0 : ∀ i, x.testBit i = true ↔ ∃ j, j < 1 ∧ x.testBit (i + j) = true := by
    intro i
    constructor
    · intro h; exact ⟨0, Nat.zero_lt_one, by simpa using h⟩
    · rintro ⟨j, hj, hb⟩
      have hj0 : j = 0 := by omega
      subst hj0; simpa using hb
  exact cover_step (cover_step (cover_step (cover_step (cover_step h0))))

lemma smear32_eq (x : Nat) (hx : x < 2 ^ 32) : smear32 x = 2 ^ x.size - 1 := by
  have hsize : x.size ≤ 32 := Nat.size_le.2 hx
  refine Nat.eq_of_testBit_eq fun i => ?_
  rw [Nat.testBit_two_pow_sub_one]
  rcases lt_or_ge i x.size with hi | hi
  · have hx0 : 0 < x := by
      rcases Nat.eq_zero_or_pos x with rfl | h
      · simp [Nat.size_zero] at hi
      · exact h
    have hszpos : 0 < x.size := Nat.size_pos.2 hx0
    have htop : x.testBit (x.size - 1) = true := by
      have h1 : 2 ^ (x.size - 1) ≤ x := Nat.lt_size.1 (by omega)
      have h2 : x < 2 ^ (x.size - 1 + 1) := by
        have h3 := Nat.lt_size_self x
        rwa [show x.size - 1 + 1 = x.size by omega]
      rw [Nat.testBit_to_div_mod]
      have hpos : 0 < 2 ^ (x.size - 1) := Nat.pos_pow_of_pos _ (by norm_num)
      have hle : 1 ≤ x / 2 ^ (x.size - 1) := (Nat.le_div_iff_mul_le hpos).2 (by omega)
      have hlt : x / 2 ^ (x.size - 1) < 2 := by
        rw [Nat.div_lt_iff_lt_mul hpos]
        calc x < 2 ^ (x.size - 1 + 1) := h2
          _ = 2 ^ (x.size - 1) * 2 := by rw [Nat.pow_succ]
          _ = 2 * 2 ^ (x.size - 1) := by ring
      have : x / 2 ^ (x.size - 1) = 1 := by omega
      simp [this]
    have hbit : (smear32 x).testBit i = true :=
      (smear32_cover x i).2 ⟨x.size - 1 - i, by omega,
        by rwa [show i + (x.size - 1 - i) = x.size - 1 by omega]⟩
    rw [hbit]
    simp [hi]
  · have hbit : (smear32 x).testBit i = false := by
      cases hb : (smear32 x).testBit i with
      | false => rfl
      | true =>
        exfalso
        obtain ⟨j, _, hxb⟩ := (smear32_cover x i).1 hb
        have hlt2 : x < 2 ^ (i + j) :=
          lt_of_lt_of_le (Nat.lt_size_self x)
            (Nat.pow_le_pow_right (by norm_num) (by omega))
        rw [Nat.testBit_eq_false_of_lt hlt2] at hxb
        exact Bool.false_ne_true hxb
    rw [hbit]
    simp
    omega

lemma initIndices_pow (s : Nat) (h1 : 1 ≤ s) (h2 : s ≤ 2 ^ 31) :
    initIndices s = 2 ^ (s - 1).size := by
  have hU : U32 = 4294967296 := by norm_num [U32]
  have h31 : (2:Nat) ^ 31 = 2147483648 := by norm_num
  have hx : (s + (U32 - 1)) % U32 = s - 1 := by rw [hU]; omega
  have hlt : s - 1 < 2 ^ 32 := by
    have h32 : (2:Nat) ^ 32 = 4294967296 := by norm_num
    omega
  have hsize : (s - 1).size ≤ 31 := Nat.size_le.2 (by omega)
  have hpow_lt : 2 ^ (s - 1).size < U32 := by
    calc 2 ^ (s - 1).size ≤ 2 ^ 31 := Nat.pow_le_pow_right (by norm_num) hsize
      _ < U32 := by omega
  have hpos : 0 < 2 ^ (s - 1).size := Nat.pos_pow_of_pos _ (by norm_num)
  simp only [initIndices]
  rw [hx, smear32_eq _ hlt, Nat.sub_add_cancel hpos, Nat.mod_eq_of_lt hpow_lt,
    if_neg (by omega)]

lemma initIndices_floor (s : Nat) (hs : s < U32) (h : s = 0 ∨ 2 ^ 31 < s) :
    initIndices s = 256 := by
  have hU : U32 = 4294967296 := by norm_num [U32]
  have h31 : (2:Nat) ^ 31 = 2147483648 := by norm_num
  rcases h with rfl | h
  · decide
  · have hx : (s + (U32 - 1)) % U32 = s - 1 := by rw [hU]; omega
    have hlt : s - 1 < 2 ^ 32 := by
      have h32 : (2:Nat) ^ 32 = 4294967296 := by norm_num
      omega
    have hsize : (s - 1).size = 32 := by
      have h32' : 31 < (s - 1).size := Nat.lt_size.2 (by omega)
      have hle : (s - 1).size ≤ 32 := Nat.size_le.2 hlt
      omega
    simp only [initIndices]
    rw [hx, smear32_eq _ hlt, hsize]
    norm_num [U32]

/-- C6: the constructor rounds any requested capacity in `[1, 2^31]` up to
the smallest power of two at least the request; a request of 0 or above
`2^31` makes the computed value wrap to 0 and triggers the floor of 256; in
particular 0, 5, 256, 300 yield 256, 8, 256, 512. -/
theorem C6_construction_rounding :
    (∀ s : Nat, 1 ≤ s → s ≤ 2 ^ 31 →
      s ≤ initIndices s ∧ (∃ k, initIndices s = 2 ^ k) ∧
      (∀ t : Nat, (∃ k, t = 2 ^ k) → s ≤ t → initIndices s ≤ t)) ∧
    (∀ s : Nat, s < U32 → s = 0 ∨ 2 ^ 31 < s → initIndices s = 256) ∧
    (initIndices 0 = 256 ∧ initIndices 5 = 8 ∧ initIndices 256 = 256 ∧
     initIndices 300 = 512) := by
  refine ⟨?_, fun s hs h => initIndices_floor s hs h, by decide⟩
  intro s h1 h2
  rw [initIndices_pow s h1 h2]
  refine ⟨?_, ⟨_, rfl⟩, ?_⟩
  · have := Nat.lt_size_self (s - 1)
    omega
  · rintro t ⟨k, rfl⟩ hst
    exact Nat.pow_le_pow_right (by norm_num) (Nat.size_le.2 (by omega))

theorem C6_witness :
    initIndices 5 ≤ 8 ∧ initIndices 4000000000 = 256 :=
  ⟨(C6_construction_rounding.1 5 (by decide) (by decide)).2.2 8 ⟨3, rfl⟩ (by decide),
   C6_construction_rounding.2.1 4000000000 (by decide) (Or.inr (by decide))⟩

end Rstd

namespace Rstd

set_option maxRecDepth 1000000

lemma toBits_eq_twosComplement (k : Int) (h1 : -(2 ^ 31) ≤ k) (h2 : k < 2 ^ 31) :
    hash_map.toBits k = twosComplement k := by
  unfold hash_map.toBits twosComplement
  have hU : (U32 : Int) = 4294967296 := by norm_num [U32]
  have hU2 : U32 = 4294967296 := by norm_num [U32]
  have h1' : -2147483648 ≤ k := by norm_num at h1; exact h1
  have h2' : k < 2147483648 := by norm_num at h2; exact h2
  rw [hU, hU2]
  split <;> omega

end Rstd

namespace Rstd

set_option maxRecDepth 1000000

lemma hashThis_lt {α : Type} (m : hash_map α) (k : Int) (j : Nat)
    (hj : m.hashIndices = 2 ^ j) (hj32 : j ≤ 32) : m.hashThis k < m.hashIndices := by
  unfold hash_map.hashThis
  rw [hj]
  have hU2 : U32 = 4294967296 := by norm_num [U32]
  have hp1 : 1 ≤ 2 ^ j := Nat.one_le_two_pow
  have hp2 : 2 ^ j ≤ 4294967296 := by
    calc 2 ^ j ≤ 2 ^ 32 := Nat.pow_le_pow_right (by norm_num) hj32
      _ = 4294967296 := by norm_num
  have hmask : (2 ^ j + (U32 - 1)) % U32 = 2 ^ j - 1 := by rw [hU2]; omega
  rw [hmask, Nat.and_pow_two_sub_one_eq_mod]
  exact Nat.mod_lt _ (by omega)

/-- C8: the hash is the key's raw two's-complement bit pattern masked with
`bucketCount() - 1`, with no sign normalization of negative keys, and the
result is an index below `bucketCount()` (a power of two). -/
theorem C8_hash_is_masked_bit_pattern :
    (∀ (α : Type) (m : hash_map α) (k : Int), -(2 ^ 31) ≤ k → k < 2 ^ 31 →
      1 ≤ m.bucketCount → m.bucketCount ≤ U32 →
      m.hashThis k = twosComplement k &&& (m.bucketCount - 1)) ∧
    (∀ (α : Type) (m : hash_map α) (k : Int) (j : Nat),
      m.bucketCount = 2 ^ j → j ≤ 32 → m.hashThis k < m.bucketCount) ∧
    ((newMap Nat 256).hashThis (-1) = 255 ∧ (newMap Nat 256).hashThis 1 = 1) := by
  refine ⟨?_, fun α m k j hj h32 => hashThis_lt m k j hj h32, by decide⟩
  intro α m k h1 h2 hge hle
  unfold hash_map.bucketCount at hge hle ⊢
  unfold hash_map.hashThis
  have hU2 : U32 = 4294967296 := by norm_num [U32]
  have hmask : (m.hashIndices + (U32 - 1)) % U32 = m.hashIndices - 1 := by
    rw [hU2] at hle ⊢
    omega
  rw [toBits_eq_twosComplement k h1 h2, hmask]

theorem C8_witness :
    (newMap Nat 256).hashThis (-1) =
      twosComplement (-1) &&& ((newMap Nat 256).bucketCount - 1) ∧
    (newMap Nat 256).hashThis (-1) < (newMap Nat 256).bucketCount :=
  ⟨C8_hash_is_masked_bit_pattern.1 Nat (newMap Nat 256) (-1)
      (by decide) (by decide) (by decide) (by decide),
   C8_hash_is_masked_bit_pattern.2.1 Nat (newMap Nat 256) (-1) 8
      (by decide) (by decide)⟩

end Rstd

namespace Rstd

namespace Heap

lemma lookup_alloc_self {α : Type} (h : Heap α) (n : Node α) :
    (h.alloc n).2.lookup (h.alloc n).1 = some n := by
  simp [alloc, lookup]

lemma lookup_alloc_ne {α : Type} (h : Heap α) (n : Node α) (x : Nat)
    (hx : x ≠ h.nextAddr) : (h.alloc n).2.lookup x = h.lookup x := by
  simp only [alloc, lookup, List.find?_cons]
  rw [show ((h.nextAddr, n).1 == x) = false from beq_eq_false_iff_ne.2 (Ne.symm hx)]

lemma find?_map_modify {α : Type} (a : Nat) (f : Node α → Node α) :
    ∀ s : List (Nat × Node α),
      ((s.map fun p => if p.1 = a then (p.1, f p.2) else p).find? fun p => p.1 == a)
        = (s.find? fun p => p.1 == a).map fun p => (p.1, f p.2) := by
  intro s
  induction s with
  | nil => simp
  | cons hd tl ih =>
    by_cases hh : hd.1 = a
    · simp [List.find?_cons, hh]
    · simp only [List.map_cons, List.find?_cons, if_neg hh,
        show (hd.1 == a) = false from beq_eq_false_iff_ne.2 hh, ih]

lemma lookup_modify_self {α : Type} (h : Heap α) (a : Nat) (f : Node α → Node α)
    (n : Node α) (hl : h.lookup a = some n) :
    (h.modify a f).lookup a = some (f n) := by
  unfold lookup at hl ⊢
  unfold modify
  rw [find?_map_modify]
  rw [Option.map_eq_some'] at hl
  obtain ⟨q, hq, hqn⟩ := hl
  simp [hq, hqn]

lemma lookup_modify_ne {α : Type} (h : Heap α) (a : Nat) (f : Node α → Node α)
    (x : Nat) (hx : x ≠ a) : (h.modify a f).lookup x = h.lookup x := by
  unfold lookup modify
  simp only
  congr 1
  induction h.store with
  | nil => simp
  | cons hd tl ih =>
    by_cases hh : hd.1 = a
    · simp only [List.map_cons, List.find?_cons, if_pos hh,
        show ((hd.1, f hd.2).1 == x) = false from beq_eq_false_iff_ne.2 (by simp; omega),
        show (hd.1 == x) = false from beq_eq_false_iff_ne.2 (by omega), ih]
    · simp only [List.map_cons, List.find?_cons, if_neg hh]
      cases he : (hd.1 == x) with
      | true => rfl
      | false => rw [ih]

lemma lookup_dealloc_self {α : Type} (h : Heap α) (a : Nat) :
    (h.dealloc a).lookup a = none := by
  unfold lookup dealloc
  simp only
  induction h.store with
  | nil => simp
  | cons hd tl ih =>
    by_cases hh : hd.1 = a
    · rw [List.filter_cons, if_neg (by simp [hh])]
      exact ih
    · rw [List.filter_cons, if_pos (by simp [hh]), List.find?_cons,
        show (hd.1 == a) = false from beq_eq_false_iff_ne.2 hh]
      exact ih

lemma lookup_dealloc_ne {α : Type} (h : Heap α) (a x : Nat) (hx : x ≠ a) :
    (h.dealloc a).lookup x = h.lookup x := by
  unfold lookup dealloc
  simp only
  induction h.store with
  | nil => simp
  | cons hd tl ih =>
    by_cases hh : hd.1 = a
    · rw [List.filter_cons, if_neg (by simp [hh])]
      conv_rhs => rw [List.find?_cons]
      rw [show (hd.1 == x) = false from beq_eq_false_iff_ne.2 (by omega)]
      exact ih
    · rw [List.filter_cons, if_pos (by simp [hh])]
      conv_lhs => rw [List.find?_cons]
      conv_rhs => rw [List.find?_cons]
      cases he : (hd.1 == x) with
      | true => simp
      | false => exact ih

lemma mem_of_lookup {α : Type} {h : Heap α} {x : Nat} {n : Node α}
    (hl : h.lookup x = some n) : (x, n) ∈ h.store := by
  unfold lookup at hl
  rw [Option.map_eq_some'] at hl
  obtain ⟨q, hq, hqn⟩ := hl
  have hm := List.mem_of_find?_eq_some hq
  have hx := List.find?_some hq
  simp only [beq_iff_eq] at hx
  cases q with
  | mk q1 q2 =>
    simp only at hx hqn
    subst hx
    subst hqn
    exact hm

lemma modify_map_fst {α : Type} (h : Heap α) (a : Nat) (f : Node α → Node α) :
    (h.modify a f).store.map Prod.fst = h.store.map Prod.fst := by
  unfold modify
  simp only [List.map_map]
  congr 1
  funext p
  by_cases hh : p.1 = a <;> simp [hh]

lemma modify_store_length {α : Type} (h : Heap α) (a : Nat) (f : Node α → Node α) :
    (h.modify a f).store.length = h.store.length := by
  simp [modify]

lemma modify_nextAddr {α : Type} (h : Heap α) (a : Nat) (f : Node α → Node α) :
    (h.modify a f).nextAddr = h.nextAddr := rfl

lemma alloc_nextAddr {α : Type} (h : Heap α) (n : Node α) :
    (h.alloc n).2.nextAddr = h.nextAddr + 1 := rfl

lemma alloc_fst {α : Type} (h : Heap α) (n : Node α) :
    (h.alloc n).1 = h.nextAddr := rfl

lemma alloc_store_length {α : Type} (h : Heap α) (n : Node α) :
    (h.alloc n).2.store.length = h.store.length + 1 := rfl

lemma dealloc_nextAddr {α : Type} (h : Heap α) (a : Nat) :
    (h.dealloc a).nextAddr = h.nextAddr := rfl

lemma dealloc_map_fst_nodup {α : Type} (h : Heap α) (a : Nat)
    (hnd : (h.store.map Prod.fst).Nodup) :
    ((h.dealloc a).store.map Prod.fst).Nodup :=
  ((List.filter_sublist h.store).map Prod.fst).nodup hnd

lemma filter_ne_length {α : Type} (a : Nat) :
    ∀ (s : List (Nat × Node α)) (n : Node α), (a, n) ∈ s → (s.map Prod.fst).Nodup →
      (s.filter fun p => p.1 ≠ a).length + 1 = s.length := by
  intro s
  induction s with
  | nil => intro n hmem _; simp at hmem
  | cons hd tl ih =>
    intro n hmem hnd
    simp only [List.map_cons, List.nodup_cons] at hnd
    rcases List.mem_cons.1 hmem with heq | hmemtl
    · rw [List.filter_cons, if_neg (by simp [← heq])]
      have hall : ∀ p ∈ tl, (decide (p.1 ≠ a)) = true := by
        intro p hp
        simp only [decide_eq_true_iff]
        intro hpa
        have : hd.1 ∈ List.map Prod.fst tl := by
          rw [← heq]
          simpa [← hpa] using List.mem_map_of_mem Prod.fst hp
        exact hnd.1 this
      rw [List.filter_eq_self.2 hall]
      simp
    · have hha : hd.1 ≠ a := by
        intro hda
        have : hd.1 ∈ List.map Prod.fst tl := by
          rw [hda]
          simpa using List.mem_map_of_mem Prod.fst hmemtl
        exact hnd.1 this
      rw [List.filter_cons, if_pos (by simp [hha])]
      simp only [List.length_cons]
      rw [ih n hmemtl hnd.2]

lemma dealloc_length {α : Type} (h : Heap α) (a : Nat) (n : Node α)
    (hl : h.lookup a = some n) (hnd : (h.store.map Prod.fst).Nodup) :
    (h.dealloc a).store.length + 1 = h.store.length :=
  filter_ne_length a h.store n (mem_of_lookup hl) hnd

end Heap



end Rstd

namespace Rstd

lemma ChainSeg.lookup_mem {α : Type} {h : Heap α} {o : Option Nat}
    {l : List (Nat × Node α)} {e : Option Nat} (hs : ChainSeg h o l e) :
    ∀ q ∈ l, h.lookup q.1 = some q.2 := by
  induction hs with
  | nil => simp
  | cons a n l e hl _ ih =>
    intro q hq
    rcases List.mem_cons.1 hq with rfl | hq2
    · exact hl
    · exact ih q hq2

lemma ChainSeg.frame {α : Type} {h h' : Heap α} {o : Option Nat}
    {l : List (Nat × Node α)} {e : Option Nat} (hs : ChainSeg h o l e)
    (hfr : ∀ q ∈ l, h'.lookup q.1 = h.lookup q.1) : ChainSeg h' o l e := by
  induction hs with
  | nil => exact ChainSeg.nil _
  | cons a n l e hl _ ih =>
    refine ChainSeg.cons a n l e ?_ (ih fun q hq => hfr q (List.mem_cons_of_mem _ hq))
    rw [hfr (a, n) (List.mem_cons_self _ _)]
    exact hl

lemma ChainSeg.nil_inv {α : Type} {h : Heap α} {o e : Option Nat}
    (hs : ChainSeg h o ([] : List (Nat × Node α)) e) : o = e := by
  cases hs
  rfl

lemma ChainSeg.cons_inv {α : Type} {h : Heap α} {o : Option Nat} {b : Nat}
    {n : Node α} {l : List (Nat × Node α)} {e : Option Nat}
    (hs : ChainSeg h o ((b, n) :: l) e) :
    o = some b ∧ h.lookup b = some n ∧ ChainSeg h n.childNode l e := by
  cases hs with
  | cons a n' l' e' hl hrest => exact ⟨rfl, hl, hrest⟩

lemma ChainSeg.none_inv {α : Type} {h : Heap α} {l : List (Nat × Node α)}
    {e : Option Nat} (hs : ChainSeg h none l e) : l = [] ∧ e = none := by
  cases hs
  exact ⟨rfl, rfl⟩

lemma ChainSeg.append_split {α : Type} {h : Heap α} :
    ∀ {l1 l2 : List (Nat × Node α)} {o e : Option Nat},
      ChainSeg h o (l1 ++ l2) e → ∃ mid, ChainSeg h o l1 mid ∧ ChainSeg h mid l2 e := by
  intro l1
  induction l1 with
  | nil => intro l2 o e hs; exact ⟨o, ChainSeg.nil o, hs⟩
  | cons hd tl ih =>
    intro l2 o e hs
    cases hd with
    | mk b n =>
      obtain ⟨rfl, hl, hrest⟩ := ChainSeg.cons_inv hs
      obtain ⟨mid, h1, h2⟩ := ih hrest
      exact ⟨mid, ChainSeg.cons b n tl mid hl h1, h2⟩

lemma ChainSeg.append_join {α : Type} {h : Heap α} :
    ∀ {l1 l2 : List (Nat × Node α)} {o mid e : Option Nat},
      ChainSeg h o l1 mid → ChainSeg h mid l2 e → ChainSeg h o (l1 ++ l2) e := by
  intro l1
  induction l1 with
  | nil =>
    intro l2 o mid e h1 h2
    rw [ChainSeg.nil_inv h1]
    simpa using h2
  | cons hd tl ih =>
    intro l2 o mid e h1 h2
    cases hd with
    | mk b n =>
      obtain ⟨rfl, hl, hrest⟩ := ChainSeg.cons_inv h1
      exact ChainSeg.cons b n (tl ++ l2) e hl (ih hrest h2)

lemma ChainSeg.fst_mem_store {α : Type} {h : Heap α} {o : Option Nat}
    {l : List (Nat × Node α)} {e : Option Nat} (hs : ChainSeg h o l e) :
    ∀ x ∈ l.map Prod.fst, x ∈ h.store.map Prod.fst := by
  intro x hx
  rw [List.mem_map] at hx
  obtain ⟨q, hq, rfl⟩ := hx
  exact List.mem_map_of_mem Prod.fst (Heap.mem_of_lookup (hs.lookup_mem q hq))

lemma ChainSeg.length_le {α : Type} {h : Heap α} {o : Option Nat}
    {l : List (Nat × Node α)} {e : Option Nat} (hs : ChainSeg h o l e)
    (hnd : (l.map Prod.fst).Nodup) : l.length ≤ h.store.length := by
  have hsub : (l.map Prod.fst).Subperm (h.store.map Prod.fst) :=
    List.subperm_of_subset hnd hs.fst_mem_store
  have := hsub.length_le
  simpa using this

lemma chainList_sound {α : Type} (h : Heap α) :
    ∀ (fuel : Nat) (o : Option Nat) (l : List (Nat × Node α)),
      chainList fuel h o = some l → ChainSeg h o l none := by
  intro fuel
  induction fuel with
  | zero =>
    intro o l hc
    cases o with
    | none => cases hc; exact ChainSeg.nil none
    | some a => simp [chainList] at hc
  | succ f ih =>
    intro o l hc
    cases o with
    | none => cases hc; exact ChainSeg.nil none
    | some a =>
      rw [chainList] at hc
      cases hl : h.lookup a with
      | none => rw [hl] at hc; simp at hc
      | some n =>
        rw [hl] at hc
        simp only at hc
        rw [Option.map_eq_some'] at hc
        obtain ⟨l', hl', rfl⟩ := hc
        exact ChainSeg.cons a n l' none hl (ih n.childNode l' hl')

lemma chainList_complete {α : Type} {h : Heap α} :
    ∀ {l : List (Nat × Node α)} {o : Option Nat},
      ChainSeg h o l none → ∀ fuel, l.length < fuel → chainList fuel h o = some l := by
  intro l
  induction l with
  | nil =>
    intro o hs fuel _
    rw [ChainSeg.nil_inv hs]
    cases fuel <;> rfl
  | cons hd tl ih =>
    intro o hs fuel hfuel
    cases hd with
    | mk b n =>
      obtain ⟨rfl, hl, hrest⟩ := ChainSeg.cons_inv hs
      cases fuel with
      | zero => omega
      | succ f =>
        rw [chainList, hl]
        simp only
        rw [ih hrest f (by simpa using hfuel)]
        rfl

end Rstd

namespace Rstd

lemma ChainSeg.to_some {α : Type} {h : Heap α} {o : Option Nat}
    {l : List (Nat × Node α)} {d : Nat} (hs : ChainSeg h o l (some d)) :
    ∃ c, o = some c := by
  cases hs with
  | nil => exact ⟨d, rfl⟩
  | cons a n l e hl hr => exact ⟨a, rfl⟩

lemma accessLoop_found {α : Type} [Inhabited α] (m : hash_map α) (k : Int) :
    ∀ (l1 : List (Nat × Node α)) (a0 fuel ca : Nat) (cn : Node α),
      ChainSeg m.heap (some a0) l1 (some ca) →
      (∀ q ∈ l1, q.2.rawKey ≠ k) →
      m.heap.lookup ca = some cn → cn.rawKey = k →
      l1.length + 1 ≤ fuel →
      hash_map.accessLoop fuel m k a0 = some (ca, m) := by
  intro l1
  induction l1 with
  | nil =>
    intro a0 fuel ca cn hs _ hca hkey hfuel
    obtain rfl : a0 = ca := by
      have := ChainSeg.nil_inv hs
      injection this
    cases fuel with
    | zero => omega
    | succ f =>
      rw [hash_map.accessLoop, hca]
      simp only
      rw [if_pos hkey]
  | cons hd tl ih =>
    intro a0 fuel ca cn hs hkeys hca hkey hfuel
    cases hd with
    | mk b n =>
      obtain ⟨hob, hlb, hrest⟩ := ChainSeg.cons_inv hs
      obtain rfl : a0 = b := by injection hob
      cases fuel with
      | zero => omega
      | succ f =>
        rw [hash_map.accessLoop, hlb]
        simp only
        rw [if_neg (hkeys (a0, n) (List.mem_cons_self _ _))]
        obtain ⟨c, hc⟩ := ChainSeg.to_some hrest
        rw [hc]
        show hash_map.accessLoop f m k c = some (ca, m)
        exact ih c f ca cn (hc ▸ hrest)
          (fun q hq => hkeys q (List.mem_cons_of_mem _ hq)) hca hkey
          (by simp at hfuel; omega)

lemma ChainSeg.head_addr {α : Type} {h : Heap α} {o : Option Nat}
    {q : Nat × Node α} {l : List (Nat × Node α)} {e : Option Nat}
    (hs : ChainSeg h o (q :: l) e) : o = some q.1 := by
  cases hs
  rfl

lemma accessLoop_append {α : Type} [Inhabited α] (m : hash_map α) (k : Int) :
    ∀ (l1 : List (Nat × Node α)) (t : Nat) (tn : Node α) (a0 fuel : Nat),
      ChainSeg m.heap (some a0) (l1 ++ [(t, tn)]) none →
      (∀ q ∈ l1 ++ [(t, tn)], q.2.rawKey ≠ k) →
      l1.length + 2 ≤ fuel →
      hash_map.accessLoop fuel m k a0 =
        some (m.heap.nextAddr,
          { m with
            heap := ((m.heap.alloc ⟨k, default, some t, none⟩).2).modify t
              (fun nd => { nd with childNode := some m.heap.nextAddr }),
            elementCount := (m.elementCount + 1) % U32 }) := by
  intro l1
  induction l1 with
  | nil =>
    intro t tn a0 fuel hs hkeys hfuel
    simp only [List.nil_append] at hs hkeys
    obtain ⟨hob, hlb, hrest⟩ := ChainSeg.cons_inv hs
    obtain rfl : a0 = t := by injection hob
    cases fuel with
    | zero => omega
    | succ f =>
      rw [hash_map.accessLoop, hlb]
      simp only
      rw [if_neg (hkeys (a0, tn) (List.mem_cons_self _ _)), ChainSeg.nil_inv hrest]
      rfl
  | cons hd tl ih =>
    intro t tn a0 fuel hs hkeys hfuel
    cases hd with
    | mk b n =>
      rw [List.cons_append] at hs
      obtain ⟨hob, hlb, hrest⟩ := ChainSeg.cons_inv hs
      obtain rfl : a0 = b := by injection hob
      cases fuel with
      | zero => simp only [List.length_cons] at hfuel; omega
      | succ f =>
        rw [hash_map.accessLoop, hlb]
        simp only
        rw [if_neg (hkeys (a0, n) (List.mem_cons_self _ _))]
        obtain ⟨q, l', hql⟩ : ∃ q l', tl ++ [(t, tn)] = q :: l' := by
          cases tl with
          | nil => exact ⟨(t, tn), [], rfl⟩
          | cons x xs => exact ⟨x, xs ++ [(t, tn)], rfl⟩
        rw [hql] at hrest
        have hhead : n.childNode = some q.1 := ChainSeg.head_addr hrest
        rw [hhead]
        show hash_map.accessLoop f m k q.1 = _
        refine ih t tn q.1 f ?_ (fun r hr => hkeys r (List.mem_cons_of_mem _ hr)) ?_
        · rw [hql]
          exact hhead ▸ hrest
        · simp only [List.length_cons] at hfuel
          omega

end Rstd

namespace Rstd

lemma WFb_spec {α : Type} {m : hash_map α} (h : WFb m = true) :
    m.heads.length = m.hashIndices ∧ (m.heap.store.map Prod.fst).Nodup ∧
    (∀ q ∈ m.heap.store, q.1 < m.heap.nextAddr) ∧
    (∃ j, j < 32 ∧ m.hashIndices = 2 ^ j) ∧
    ∀ i, i < m.hashIndices → bucketOK m i = true := by
  unfold WFb at h
  simp only [Bool.and_eq_true, decide_eq_true_eq, List.all_eq_true, List.any_eq_true,
    List.mem_range, beq_iff_eq] at h
  obtain ⟨⟨⟨⟨h1, h2⟩, h3⟩, h4⟩, h5⟩ := h
  refine ⟨h1, h2, h3, ?_, h5⟩
  obtain ⟨j, hj1, hj2⟩ := h4
  exact ⟨j, hj1, hj2⟩

lemma bucketOK_spec {α : Type} {m : hash_map α} {i : Nat} (h : bucketOK m i = true) :
    ∃ l, chainList (m.heap.store.length + 1) m.heap (m.heads.getD i none) = some l ∧
      (l.map Prod.fst).Nodup ∧ (l.map fun q => q.2.rawKey).Nodup ∧
      (∀ q ∈ l, m.hashThis q.2.rawKey = i) ∧ parentsOK none l = true := by
  unfold bucketOK at h
  cases hc : chainList (m.heap.store.length + 1) m.heap (m.heads.getD i none) with
  | none => rw [hc] at h; exact absurd h (by simp)
  | some l =>
    rw [hc] at h
    simp only [Bool.and_eq_true, decide_eq_true_eq, List.all_eq_true, beq_iff_eq] at h
    exact ⟨l, rfl, h.1.1.1, h.1.1.2, h.1.2, h.2⟩

lemma heads_getD {α : Type} (m : hash_map α) (i : Nat) (hlen : i < m.heads.length) :
    m.heads[i]? = some (m.heads.getD i none) := by
  rw [List.getD_eq_getElem?_getD, List.getElem?_eq_getElem hlen]
  rfl

lemma exists_first_match {α : Type} (k : Int) :
    ∀ l : List (Nat × Node α), (l.any fun q => q.2.rawKey == k) = true →
      ∃ l1 ca cn l2, l = l1 ++ (ca, cn) :: l2 ∧ cn.rawKey = k ∧
        ∀ q ∈ l1, q.2.rawKey ≠ k := by
  intro l
  induction l with
  | nil => simp
  | cons hd tl ih =>
    intro h
    by_cases hh : hd.2.rawKey = k
    · exact ⟨[], hd.1, hd.2, tl, by simp, hh, by simp⟩
    · have htl : (tl.any fun q => q.2.rawKey == k) = true := by
        simp only [List.any_cons, Bool.or_eq_true] at h
        rcases h with h1 | h2
        · exact absurd (by simpa using h1) hh
        · exact h2
      obtain ⟨l1, ca, cn, l2, heq, hkey, hl1⟩ := ih htl
      refine ⟨hd :: l1, ca, cn, l2, by simp [heq], hkey, ?_⟩
      intro q hq
      rcases List.mem_cons.1 hq with rfl | hq2
      · exact hh
      · exact hl1 q hq2

lemma all_ne_of_any_false {α : Type} {k : Int} {l : List (Nat × Node α)}
    (h : (l.any fun q => q.2.rawKey == k) = false) : ∀ q ∈ l, q.2.rawKey ≠ k := by
  intro q hq hk
  have : (l.any fun q => q.2.rawKey == k) = true := List.any_eq_true.2 ⟨q, hq, by simp [hk]⟩
  rw [h] at this
  exact absurd this (by simp)

end Rstd

namespace Rstd

lemma exists_append_single {β : Type} {l : List β} (h : l ≠ []) :
    ∃ l1 q, l = l1 ++ [q] := by
  rcases List.eq_nil_or_concat l with rfl | ⟨l1, q, rfl⟩
  · exact absurd rfl h
  · exact ⟨l1, q, List.concat_eq_append _ _⟩

/-- C7: get_or_insert called twice with no intervening erase returns the same
node both times, with no state change at all on the second call; the first
call raises size() by one exactly when the key was absent and is a pure
lookup when it was present. -/
theorem C7_get_or_insert_idempotent {α : Type} [Inhabited α] :
    ∀ (m m1 : hash_map α) (k : Int) (a : Nat),
      WFb m = true →
      m.getOrInsert k = some (a, m1) →
      m1.getOrInsert k = some (a, m1) ∧
      (keyInChain m k = false → m.elementCount + 1 < U32 →
        m1.size = m.size + 1) ∧
      (keyInChain m k = true → m1 = m) := by
  intro m m1 k a hwf h1
  have horig := h1
  obtain ⟨hlen, hnd, hbound, ⟨j, hj32, hjpow⟩, hbuck⟩ := WFb_spec hwf
  have hik : m.hashThis k < m.hashIndices := hashThis_lt m k j hjpow (by omega)
  have hheads : m.heads[m.hashThis k]? = some (m.heads.getD (m.hashThis k) none) :=
    heads_getD m _ (by omega)
  obtain ⟨l, hcl, hlnd, hknd, hhash, hpar⟩ := bucketOK_spec (hbuck _ hik)
  have hseg : ChainSeg m.heap (m.heads.getD (m.hashThis k) none) l none :=
    chainList_sound _ _ _ _ hcl
  simp only [hash_map.getOrInsert] at h1
  rw [hheads] at h1
  cases hb : m.heads.getD (m.hashThis k) none with
  | none =>
    rw [hb] at h1 hseg
    obtain ⟨rfl, -⟩ : l = [] ∧ (none : Option Nat) = none := ChainSeg.none_inv hseg
    simp only at h1
    rw [Option.some_inj, Prod.ext_iff] at h1
    obtain ⟨ha, hm1⟩ := h1
    simp only at ha hm1
    have hfalse : keyInChain m k = false := by
      unfold keyInChain
      rw [hcl]
      rfl
    refine ⟨?_, ?_, ?_⟩
    · rw [← hm1, ← ha]
      simp only [hash_map.getOrInsert, hash_map.hashThis]
      rw [List.getElem?_set_self (by rw [hlen]; exact hik)]
      refine accessLoop_found _ k [] _ _ _ _ (ChainSeg.nil _) (by simp)
        (Heap.lookup_alloc_self _ _) rfl ?_
      simp
    · intro _ hcnt
      rw [← hm1]
      unfold hash_map.size
      simp only
      exact Nat.mod_eq_of_lt hcnt
    · intro htrue
      rw [hfalse] at htrue
      exact absurd htrue (by simp)
  | some headAddr =>
    rw [hb] at h1 hseg hheads
    simp only at h1
    have hllen : l.length ≤ m.heap.store.length := hseg.length_le hlnd
    cases hkc : (l.any fun q => q.2.rawKey == k) with
    | true =>
      obtain ⟨l1, ca, cn, l2, rfl, hkey, hl1⟩ := exists_first_match k l hkc
      obtain ⟨mid, hs1, hs2⟩ := ChainSeg.append_split hseg
      obtain ⟨hmid, hlca, hrest2⟩ := ChainSeg.cons_inv hs2
      subst hmid
      simp only [List.length_append, List.length_cons] at hllen
      have hfound := accessLoop_found m k l1 headAddr (m.heap.store.length + 1) ca cn
        hs1 hl1 hlca hkey (by omega)
      rw [hfound] at h1
      rw [Option.some_inj, Prod.ext_iff] at h1
      obtain ⟨ha, hm1⟩ := h1
      simp only at ha hm1
      have htrue : keyInChain m k = true := by
        unfold keyInChain
        rw [hcl]
        exact hkc
      subst hm1
      subst ha
      refine ⟨horig, ?_, fun _ => rfl⟩
      intro hfalse
      rw [htrue] at hfalse
      exact absurd hfalse (by simp)
    | false =>
      have hall := all_ne_of_any_false hkc
      have hne : l ≠ [] := by
        intro h0
        rw [h0] at hseg
        have := ChainSeg.nil_inv hseg
        simp at this
      obtain ⟨l1, ⟨t, tn⟩, rfl⟩ := exists_append_single hne
      simp only [List.length_append, List.length_cons, List.length_nil] at hllen
      have happ := accessLoop_append m k l1 t tn headAddr (m.heap.store.length + 1)
        hseg hall (by omega)
      rw [happ] at h1
      rw [Option.some_inj, Prod.ext_iff] at h1
      obtain ⟨ha, hm1⟩ := h1
      simp only at ha hm1
      have hfalse : keyInChain m k = false := by
        unfold keyInChain
        rw [hcl]
        exact hkc
      have htS : m.heap.lookup t = some tn := hseg.lookup_mem (t, tn) (by simp)
      have htlt : t < m.heap.nextAddr := hbound (t, tn) (Heap.mem_of_lookup htS)
      obtain ⟨mid, hsl1, hst⟩ := ChainSeg.append_split hseg
      obtain ⟨hmid, -, hrest⟩ := ChainSeg.cons_inv hst
      subst hmid
      have htnodup : t ∉ l1.map Prod.fst := by
        rw [List.map_append] at hlnd
        have hdis := List.disjoint_of_nodup_append hlnd
        intro hmem
        exact hdis hmem (by simp)
      refine ⟨?_, ?_, ?_⟩
      · rw [← hm1, ← ha]
        simp only [hash_map.getOrInsert, hash_map.hashThis] at hheads ⊢
        rw [hheads]
        refine accessLoop_found _ k (l1 ++ [(t, { tn with childNode := some m.heap.nextAddr })])
          headAddr _ m.heap.nextAddr ⟨k, default, some t, none⟩ ?_ ?_ ?_ rfl ?_
        · refine @ChainSeg.append_join α _ l1 _ _ (some t) _ ?_ ?_
          · refine hsl1.frame ?_
            intro q hq
            have hqmem : (q.1, q.2) ∈ m.heap.store := Heap.mem_of_lookup (hsl1.lookup_mem q hq)
            have hqlt : q.1 < m.heap.nextAddr := hbound _ hqmem
            have hqt : q.1 ≠ t := by
              intro hh
              exact htnodup (hh ▸ List.mem_map_of_mem Prod.fst hq)
            rw [Heap.lookup_modify_ne _ _ _ _ hqt, Heap.lookup_alloc_ne _ _ _ (by omega)]
          · refine ChainSeg.cons t _ [] (some m.heap.nextAddr) ?_ (ChainSeg.nil _)
            have h1t : ((m.heap.alloc ⟨k, default, some t, none⟩).2).lookup t = some tn := by
              rw [Heap.lookup_alloc_ne _ _ _ (by omega)]
              exact htS
            exact Heap.lookup_modify_self _ _ _ _ h1t
        · intro q hq
          rcases List.mem_append.1 hq with hq1 | hq2
          · exact hall q (List.mem_append_left _ hq1)
          · simp only [List.mem_singleton] at hq2
            subst hq2
            exact hall (t, tn) (by simp)
        · rw [Heap.lookup_modify_ne _ _ _ _ (by omega)]
          exact Heap.lookup_alloc_self _ _
        · simp only [List.length_append, List.length_cons, List.length_nil,
            Heap.modify_store_length, Heap.alloc_store_length]
          omega
      · intro _ hcnt
        rw [← hm1]
        unfold hash_map.size
        simp only
        exact Nat.mod_eq_of_lt hcnt
      · intro htrue
        rw [hfalse] at htrue
        exact absurd htrue (by simp)

end Rstd

namespace Rstd

set_option maxRecDepth 1000000

theorem C7_witness :
    mapA.getOrInsert 1 = some (0, mapA) ∧ mapA.size = map256.size + 1 :=
  ⟨(C7_get_or_insert_idempotent map256 mapA 1 0 (by decide) (by decide)).1,
   (C7_get_or_insert_idempotent map256 mapA 1 0 (by decide) (by decide)).2.1
     (by decide) (by decide)⟩

end Rstd

namespace Rstd

lemma destroy_spec {α : Type} :
    ∀ (lc : List (Nat × Node α)) (h : Heap α) (c : Nat) (cn : Node α),
      ChainSeg h (some c) ((c, cn) :: lc) none →
      (((c, cn) :: lc).map Prod.fst).Nodup →
      (h.store.map Prod.fst).Nodup →
      ∃ h2, destroyNode (h.store.length + 1) h (some c) = some h2 ∧
        (∀ x, h2.lookup x = if x ∈ ((c, cn) :: lc).map Prod.fst then none else h.lookup x) ∧
        h2.nextAddr = h.nextAddr ∧
        h2.store.length + ((c, cn) :: lc).length = h.store.length ∧
        (h2.store.map Prod.fst).Nodup := by
  intro lc
  induction lc with
  | nil =>
    intro h c cn hseg hlnd hnd
    obtain ⟨-, hlc, hrest⟩ := ChainSeg.cons_inv hseg
    have hchild : cn.childNode = none := ChainSeg.nil_inv hrest
    refine ⟨h.dealloc c, ?_, ?_, rfl, ?_, Heap.dealloc_map_fst_nodup h c hnd⟩
    · rw [destroyNode, hlc]
      show destroyNode h.store.length (h.dealloc c) cn.childNode = some (h.dealloc c)
      rw [hchild]
      cases h.store.length <;> rfl
    · intro x
      by_cases hx : x = c
      · subst hx
        simp [Heap.lookup_dealloc_self]
      · simp only [List.map_cons, List.map_nil, List.mem_cons]
        rw [if_neg (by simpa using hx)]
        exact Heap.lookup_dealloc_ne h c x hx
    · simpa using Heap.dealloc_length h c cn hlc hnd
  | cons hd2 lc' ih =>
    intro h c cn hseg hlnd hnd
    cases hd2 with
    | mk c2 cn2 =>
      obtain ⟨-, hlc, hrest⟩ := ChainSeg.cons_inv hseg
      have hchild : cn.childNode = some c2 := ChainSeg.head_addr hrest
      have hlnd_all : (c :: c2 :: lc'.map Prod.fst).Nodup := by
        simpa only [List.map_cons] using hlnd
      have hc2ne : c ∉ ((c2, cn2) :: lc').map Prod.fst := by
        simpa only [List.map_cons] using (List.nodup_cons.1 hlnd_all).1
      rw [hchild] at hrest
      have hsegd : ChainSeg (h.dealloc c) (some c2) ((c2, cn2) :: lc') none := by
        refine hrest.frame ?_
        intro q hq
        have hqc : q.1 ≠ c := by
          intro hqc
          exact hc2ne (hqc ▸ List.mem_map_of_mem Prod.fst hq)
        exact Heap.lookup_dealloc_ne h c q.1 hqc
      have hdlen : (h.dealloc c).store.length + 1 = h.store.length :=
        Heap.dealloc_length h c cn hlc hnd
      obtain ⟨h2, hdes, hlook, hna, hlen2, hnd2⟩ :=
        ih (h.dealloc c) c2 cn2 hsegd
          (by simpa only [List.map_cons] using hlnd_all.of_cons)
          (Heap.dealloc_map_fst_nodup h c hnd)
      refine ⟨h2, ?_, ?_, ?_, ?_, hnd2⟩
      · rw [destroyNode, hlc]
        show destroyNode h.store.length (h.dealloc c) cn.childNode = some h2
        rw [hchild, ← hdlen]
        exact hdes
      · intro x
        by_cases hx : x = c
        · subst hx
          rw [hlook x, if_neg hc2ne, Heap.lookup_dealloc_self, if_pos (by simp)]
        · rw [hlook x]
          by_cases hx2 : x ∈ ((c2, cn2) :: lc').map Prod.fst
          · rw [if_pos hx2, if_pos (by simp only [List.map_cons, List.mem_cons] at hx2 ⊢; tauto)]
          · rw [if_neg hx2, Heap.lookup_dealloc_ne h c x hx,
              if_neg (by simp only [List.map_cons, List.mem_cons] at hx2 ⊢; tauto)]
      · rw [hna]
        rfl
      · simp only [List.length_cons] at hlen2 ⊢
        omega

end Rstd

namespace Rstd

lemma parentsOK_pair {α : Type} :
    ∀ (l1 : List (Nat × Node α)) (par : Option Nat) (pa : Nat) (pn : Node α)
      (ca : Nat) (cn : Node α) (l2 : List (Nat × Node α)),
      parentsOK par (l1 ++ (pa, pn) :: (ca, cn) :: l2) = true →
      cn.parentNode = some pa := by
  intro l1
  induction l1 with
  | nil =>
    intro par pa pn ca cn l2 h
    simp only [List.nil_append, parentsOK, Bool.and_eq_true, beq_iff_eq] at h
    exact h.2.1
  | cons hd tl ih =>
    intro par pa pn ca cn l2 h
    simp only [List.cons_append] at h
    cases hd with
    | mk b n =>
      simp only [parentsOK, Bool.and_eq_true] at h
      exact ih (some b) pa pn ca cn l2 h.2

lemma eraseLoop_skip {α : Type} (m : hash_map α) (k : Int) (hk : Nat) :
    ∀ (l1 : List (Nat × Node α)) (a0 b : Nat) (fuel : Nat),
      ChainSeg m.heap (some a0) l1 (some b) →
      (∀ q ∈ l1, q.2.rawKey ≠ k) →
      l1.length + 1 ≤ fuel →
      hash_map.eraseLoop fuel m k hk a0 =
        hash_map.eraseLoop (fuel - l1.length) m k hk b := by
  intro l1
  induction l1 with
  | nil =>
    intro a0 b fuel hseg _ _
    obtain rfl : a0 = b := by
      have := ChainSeg.nil_inv hseg
      injection this
    rfl
  | cons hd tl ih =>
    intro a0 b fuel hseg hkeys hfuel
    cases hd with
    | mk b0 n =>
      obtain ⟨hob, hlb, hrest⟩ := ChainSeg.cons_inv hseg
      obtain rfl : a0 = b0 := by injection hob
      cases fuel with
      | zero => simp at hfuel
      | succ f =>
        rw [hash_map.eraseLoop, hlb]
        simp only
        rw [if_neg (hkeys (a0, n) (List.mem_cons_self _ _))]
        obtain ⟨c, hc⟩ := ChainSeg.to_some hrest
        rw [hc]
        show hash_map.eraseLoop f m k hk c = _
        rw [ih c b f (hc ▸ hrest) (fun q hq => hkeys q (List.mem_cons_of_mem _ hq))
          (by simp at hfuel; omega)]
        congr 1
        simp only [List.length_cons]
        omega

lemma eraseLoop_found_nonhead {α : Type} (m : hash_map α) (k : Int) (hk : Nat)
    (ca : Nat) (cn : Node α) (pa : Nat) (pn : Node α) (fuel : Nat)
    (hca : m.heap.lookup ca = some cn) (hkey : cn.rawKey = k)
    (hpar : cn.parentNode = some pa) (hpn : m.heap.lookup pa = some pn)
    (hfuel : 1 ≤ fuel) :
    hash_map.eraseLoop fuel m k hk ca =
      (destroyNode ((m.heap.modify pa fun nd => { nd with childNode := cn.childNode
        }).store.length + 1)
        (m.heap.modify pa fun nd => { nd with childNode := cn.childNode }) (some ca)).map
        fun h2 =>
          { m with heap := h2 } := by
  cases fuel with
  | zero => omega
  | succ f =>
    rw [hash_map.eraseLoop, hca]
    simp only
    rw [if_pos hkey, hpar]
    simp only [hpn]
    rfl

lemma eraseLoop_found_head {α : Type} (m : hash_map α) (k : Int) (hk : Nat)
    (ca : Nat) (cn : Node α) (fuel : Nat)
    (hca : m.heap.lookup ca = some cn) (hkey : cn.rawKey = k)
    (hpar : cn.parentNode = none) (hfuel : 1 ≤ fuel) :
    hash_map.eraseLoop fuel m k hk ca =
      (destroyNode (m.heap.store.length + 1) m.heap (some ca)).map
        fun h2 => { m with heads := m.heads.set hk cn.childNode, heap := h2 } := by
  cases fuel with
  | zero => omega
  | succ f =>
    rw [hash_map.eraseLoop, hca]
    simp only
    rw [if_pos hkey, hpar]
    rfl

end Rstd

namespace Rstd

/-- C4 amended: on a key match the erase loop splices — head case rewrites the
bucket slot to the removed node's child, non-head case rewrites the parent's
child link — but it never updates the next node's parent back-reference, and
`delete curNode` then destroys the removed node together with its entire
child chain, leaving the spliced-in pointer dangling. -/
theorem C4_erase_splices_without_parent_fixup {α : Type} :
    (∀ (m : hash_map α) (k : Int) (l1 : List (Nat × Node α)) (pa : Nat) (pn : Node α)
        (ca : Nat) (cn : Node α) (l2 : List (Nat × Node α)),
      WFb m = true →
      chainList (m.heap.store.length + 1) m.heap (m.heads.getD (m.hashThis k) none)
        = some (l1 ++ (pa, pn) :: (ca, cn) :: l2) →
      (∀ q ∈ l1, q.2.rawKey ≠ k) → pn.rawKey ≠ k → cn.rawKey = k →
      ∃ m', m.eraseKey k = some m' ∧
        m'.heap.lookup pa = some { pn with childNode := cn.childNode } ∧
        (∀ x ∈ ((ca, cn) :: l2).map Prod.fst, m'.heap.lookup x = none) ∧
        (∀ x, x ≠ pa → x ∉ ((ca, cn) :: l2).map Prod.fst →
          m'.heap.lookup x = m.heap.lookup x) ∧
        m'.heads = m.heads ∧ m'.elementCount = m.elementCount) ∧
    (∀ (m : hash_map α) (k : Int) (ca : Nat) (cn : Node α) (l2 : List (Nat × Node α)),
      WFb m = true →
      chainList (m.heap.store.length + 1) m.heap (m.heads.getD (m.hashThis k) none)
        = some ((ca, cn) :: l2) →
      cn.rawKey = k →
      ∃ m', m.eraseKey k = some m' ∧
        m'.heads = m.heads.set (m.hashThis k) cn.childNode ∧
        (∀ x ∈ ((ca, cn) :: l2).map Prod.fst, m'.heap.lookup x = none) ∧
        (∀ x, x ∉ ((ca, cn) :: l2).map Prod.fst → m'.heap.lookup x = m.heap.lookup x) ∧
        m'.elementCount = m.elementCount) := by
  constructor
  · intro m k l1 pa pn ca cn l2 hwf hchain hkl1 hkpn hkey
    obtain ⟨hlen, hnd, hbound, ⟨j, hj32, hjpow⟩, hbuck⟩ := WFb_spec hwf
    have hik : m.hashThis k < m.hashIndices := hashThis_lt m k j hjpow (by omega)
    obtain ⟨l', hcl, hlnd, hknd, hhash, hpar⟩ := bucketOK_spec (hbuck _ hik)
    have hLeq : l' = l1 ++ (pa, pn) :: (ca, cn) :: l2 := by
      have := hcl.symm.trans hchain
      injection this
    subst hLeq
    have hseg : ChainSeg m.heap (m.heads.getD (m.hashThis k) none)
        (l1 ++ (pa, pn) :: (ca, cn) :: l2) none := chainList_sound _ _ _ _ hcl
    have hheads : m.heads[m.hashThis k]? = some (m.heads.getD (m.hashThis k) none) :=
      heads_getD m _ (by omega)
    cases hb : m.heads.getD (m.hashThis k) none with
    | none =>
      exfalso
      rw [hb] at hseg
      have := (ChainSeg.none_inv hseg).1
      simp at this
    | some headAddr =>
      rw [hb] at hseg hheads
      have hllen : (l1 ++ (pa, pn) :: (ca, cn) :: l2).length ≤ m.heap.store.length :=
        hseg.length_le hlnd
      simp only [List.length_append, List.length_cons] at hllen
      have hL2 : l1 ++ (pa, pn) :: (ca, cn) :: l2
          = (l1 ++ [(pa, pn)]) ++ (ca, cn) :: l2 := by simp
      rw [hL2] at hseg
      obtain ⟨mid, hs1, hs2⟩ := ChainSeg.append_split hseg
      obtain ⟨hmid, hlca, hrest2⟩ := ChainSeg.cons_inv hs2
      subst hmid
      have hlpa : m.heap.lookup pa = some pn := hs1.lookup_mem (pa, pn) (by simp)
      have hparc : cn.parentNode = some pa := parentsOK_pair l1 none pa pn ca cn l2 hpar
      have hpanotin : pa ∉ ((ca, cn) :: l2).map Prod.fst := by
        have hsub : (pa :: ca :: l2.map Prod.fst).Nodup := by
          refine List.Nodup.sublist ?_ (by simpa only [List.map_append, List.map_cons]
            using hlnd)
          exact (List.sublist_append_right _ _)
        simpa only [List.map_cons] using (List.nodup_cons.1 hsub).1
      have hcnnd : (((ca, cn) :: l2).map Prod.fst).Nodup := by
        have hsub : (ca :: l2.map Prod.fst).Nodup := by
          have h1 : (pa :: ca :: l2.map Prod.fst).Nodup := by
            refine List.Nodup.sublist ?_ (by simpa only [List.map_append, List.map_cons]
              using hlnd)
            exact (List.sublist_append_right _ _)
          exact h1.of_cons
        simpa only [List.map_cons] using hsub
      have hstep : m.eraseKey k
          = hash_map.eraseLoop (m.heap.store.length + 1) m k (m.hashThis k) headAddr := by
        simp only [hash_map.eraseKey]
        rw [hheads]
      rw [eraseLoop_skip m k (m.hashThis k) (l1 ++ [(pa, pn)]) headAddr ca
        (m.heap.store.length + 1) hs1 (by
          intro q hq
          rcases List.mem_append.1 hq with h1 | h2
          · exact hkl1 q h1
          · simp only [List.mem_singleton] at h2
            subst h2
            exact hkpn)
        (by simp only [List.length_append, List.length_cons, List.length_nil]; omega)]
        at hstep
      rw [eraseLoop_found_nonhead m k (m.hashThis k) ca cn pa pn _ hlca hkey hparc hlpa
        (by simp only [List.length_append, List.length_cons, List.length_nil]; omega)]
        at hstep
      have hsegmod : ChainSeg (m.heap.modify pa fun nd => { nd with childNode := cn.childNode })
          (some ca) ((ca, cn) :: l2) none := by
        refine (ChainSeg.cons ca cn l2 none hlca hrest2).frame ?_
        intro q hq
        have hqpa : q.1 ≠ pa := by
          intro hqc
          exact hpanotin (hqc ▸ List.mem_map_of_mem Prod.fst hq)
        exact Heap.lookup_modify_ne _ _ _ _ hqpa
      obtain ⟨h2, hdes, hlook, hna, hlen2, hnd2⟩ :=
        destroy_spec l2 (m.heap.modify pa fun nd => { nd with childNode := cn.childNode })
          ca cn hsegmod hcnnd (by rw [Heap.modify_map_fst]; exact hnd)
      rw [hdes] at hstep
      refine ⟨_, hstep, ?_, ?_, ?_, rfl, rfl⟩
      · show h2.lookup pa = _
        rw [hlook pa, if_neg hpanotin]
        exact Heap.lookup_modify_self _ _ _ _ hlpa
      · intro x hx
        show h2.lookup x = none
        rw [hlook x, if_pos hx]
      · intro x hxpa hxnotin
        show h2.lookup x = m.heap.lookup x
        rw [hlook x, if_neg hxnotin]
        exact Heap.lookup_modify_ne _ _ _ _ hxpa
  · intro m k ca cn l2 hwf hchain hkey
    obtain ⟨hlen, hnd, hbound, ⟨j, hj32, hjpow⟩, hbuck⟩ := WFb_spec hwf
    have hik : m.hashThis k < m.hashIndices := hashThis_lt m k j hjpow (by omega)
    obtain ⟨l', hcl, hlnd, hknd, hhash, hpar⟩ := bucketOK_spec (hbuck _ hik)
    have hLeq : l' = (ca, cn) :: l2 := by
      have := hcl.symm.trans hchain
      injection this
    subst hLeq
    have hseg : ChainSeg m.heap (m.heads.getD (m.hashThis k) none) ((ca, cn) :: l2) none :=
      chainList_sound _ _ _ _ hcl
    have hheads : m.heads[m.hashThis k]? = some (m.heads.getD (m.hashThis k) none) :=
      heads_getD m _ (by omega)
    have hb : m.heads.getD (m.hashThis k) none = some ca := ChainSeg.head_addr hseg
    rw [hb] at hseg hheads
    obtain ⟨-, hlca, hrest⟩ := ChainSeg.cons_inv hseg
    have hparc : cn.parentNode = none := by
      simp only [parentsOK, Bool.and_eq_true, beq_iff_eq] at hpar
      exact hpar.1
    have hstep : m.eraseKey k
        = hash_map.eraseLoop (m.heap.store.length + 1) m k (m.hashThis k) ca := by
      simp only [hash_map.eraseKey]
      rw [hheads]
    rw [eraseLoop_found_head m k (m.hashThis k) ca cn _ hlca hkey hparc (by omega)]
      at hstep
    obtain ⟨h2, hdes, hlook, hna, hlen2, hnd2⟩ :=
      destroy_spec l2 m.heap ca cn hseg hlnd hnd
    rw [hdes] at hstep
    refine ⟨_, hstep, rfl, ?_, ?_, rfl⟩
    · intro x hx
      show h2.lookup x = none
      rw [hlook x, if_pos hx]
    · intro x hxnotin
      show h2.lookup x = m.heap.lookup x
      rw [hlook x, if_neg hxnotin]

end Rstd

namespace Rstd

set_option maxRecDepth 1000000

/-- C4 counterexample: in the chain 1 → 257 → 513 (bucket 1, addresses 0, 1,
2), erasing the middle key 257 leaves node 0's child pointing at address 2,
but the node at address 2 (key 513) has been destroyed rather than having its
parent back-reference set to node 0 — walking the bucket afterwards is
undefined behavior. -/
theorem C4_counterexample :
    mapC.eraseKey 257 = some mapCE ∧
    mapCE.heap.lookup 0 = some ⟨1, 0, none, some 2⟩ ∧
    mapCE.heap.lookup 1 = none ∧
    mapCE.heap.lookup 2 = none ∧
    mapCE.bucketDensity 513 = none := by decide

theorem C4_witness :
    ∃ m', mapC.eraseKey 257 = some m' ∧
      m'.heap.lookup 0 = some ⟨1, 0, none, some 2⟩ := by
  obtain ⟨m', h1, h2, -⟩ :=
    (C4_erase_splices_without_parent_fixup.1 mapC 257 [] 0 ⟨1, 0, none, some 1⟩
      1 ⟨257, 42, some 0, some 2⟩ [(2, ⟨513, 7, some 1, none⟩)]
      (by decide) (by decide) (by decide) (by decide) (by decide))
  exact ⟨m', h1, h2⟩

end Rstd

namespace Rstd

lemma initIndices_good (s : Nat) : 1 ≤ initIndices s ∧ ∃ j, initIndices s = 2 ^ j := by
  have hx0 : (s + (U32 - 1)) % U32 < 2 ^ 32 := Nat.mod_lt _ (by norm_num [U32])
  have hsm := smear32_eq _ hx0
  have hsize : ((s + (U32 - 1)) % U32).size ≤ 32 := Nat.size_le.2 hx0
  unfold initIndices
  rw [hsm]
  have hpos : 0 < 2 ^ ((s + (U32 - 1)) % U32).size := Nat.pos_pow_of_pos _ (by norm_num)
  rw [Nat.sub_add_cancel hpos]
  rcases Nat.lt_or_ge ((s + (U32 - 1)) % U32).size 32 with hlt | hge
  · have hltU : 2 ^ ((s + (U32 - 1)) % U32).size < U32 := by
      show _ < 2 ^ 32
      exact Nat.pow_lt_pow_right (by norm_num) hlt
    rw [Nat.mod_eq_of_lt hltU, if_neg (by omega)]
    exact ⟨hpos, _, rfl⟩
  · have h32 : ((s + (U32 - 1)) % U32).size = 32 := le_antisymm hsize hge
    rw [h32, show (2:Nat) ^ 32 % U32 = 0 from by norm_num [U32], if_pos rfl]
    exact ⟨by norm_num, 8, by norm_num⟩

lemma accessLoop_hashIndices {α : Type} [Inhabited α] :
    ∀ (fuel : Nat) (m : hash_map α) (k : Int) (cur a : Nat) (m1 : hash_map α),
      hash_map.accessLoop fuel m k cur = some (a, m1) → m1.hashIndices = m.hashIndices := by
  intro fuel
  induction fuel with
  | zero => intro m k cur a m1 h; simp [hash_map.accessLoop] at h
  | succ f ih =>
    intro m k cur a m1 h
    rw [hash_map.accessLoop] at h
    cases hl : m.heap.lookup cur with
    | none => rw [hl] at h; simp at h
    | some n =>
      rw [hl] at h
      simp only at h
      split at h
      · rw [Option.some_inj, Prod.ext_iff] at h
        obtain ⟨h1, h2⟩ := h
        simp only at h1 h2
        rw [← h2]
      · cases hc : n.childNode with
        | some c => rw [hc] at h; exact ih m k c a m1 h
        | none =>
          rw [hc] at h
          rw [Option.some_inj, Prod.ext_iff] at h
          obtain ⟨h1, h2⟩ := h
          simp only at h1 h2
          rw [← h2]

lemma getOrInsert_hashIndices {α : Type} [Inhabited α] {m m1 : hash_map α} {k : Int}
    {a : Nat} (h : m.getOrInsert k = some (a, m1)) : m1.hashIndices = m.hashIndices := by
  simp only [hash_map.getOrInsert] at h
  cases hh : m.heads[m.hashThis k]? with
  | none => rw [hh] at h; simp at h
  | some b =>
    rw [hh] at h
    cases b with
    | none =>
      simp only at h
      rw [Option.some_inj, Prod.ext_iff] at h
      obtain ⟨h1, h2⟩ := h
      simp only at h1 h2
      rw [← h2]
    | some headAddr => exact accessLoop_hashIndices _ m k headAddr a m1 h

lemma setVal_hashIndices {α : Type} [Inhabited α] {m m1 : hash_map α} {k : Int} {v : α}
    (h : m.setVal k v = some m1) : m1.hashIndices = m.hashIndices := by
  unfold hash_map.setVal at h
  rw [Option.map_eq_some'] at h
  obtain ⟨⟨pa, pm⟩, hp, hm1⟩ := h
  rw [← hm1]
  show pm.hashIndices = m.hashIndices
  exact getOrInsert_hashIndices hp

lemma eraseLoop_hashIndices {α : Type} :
    ∀ (fuel : Nat) (m : hash_map α) (k : Int) (hk cur : Nat) (m1 : hash_map α),
      hash_map.eraseLoop fuel m k hk cur = some m1 → m1.hashIndices = m.hashIndices := by
  intro fuel
  induction fuel with
  | zero => intro m k hk cur m1 h; simp [hash_map.eraseLoop] at h
  | succ f ih =>
    intro m k hk cur m1 h
    rw [hash_map.eraseLoop] at h
    cases hl : m.heap.lookup cur with
    | none => rw [hl] at h; simp at h
    | some nd =>
      rw [hl] at h
      simp only at h
      split at h
      · rw [Option.bind_eq_some] at h
        obtain ⟨mm, hmm, hdes⟩ := h
        rw [Option.map_eq_some'] at hdes
        obtain ⟨h2, -, hm1⟩ := hdes
        have hc1 : mm.hashIndices = m.hashIndices := by
          split at hmm
          · cases hmm; rfl
          · split at hmm
            · exact absurd hmm (by simp)
            · cases hmm; rfl
        rw [← hm1]
        exact hc1
      · cases hc : nd.childNode with
        | none => rw [hc] at h; cases h; rfl
        | some c => rw [hc] at h; exact ih m k hk c m1 h

lemma eraseKey_hashIndices {α : Type} {m m1 : hash_map α} {k : Int}
    (h : m.eraseKey k = some m1) : m1.hashIndices = m.hashIndices := by
  simp only [hash_map.eraseKey] at h
  cases hh : m.heads[m.hashThis k]? with
  | none => rw [hh] at h; simp at h
  | some b =>
    rw [hh] at h
    cases b with
    | none => cases h; rfl
    | some a => exact eraseLoop_hashIndices _ m k _ a m1 h

lemma clear_hashIndices {α : Type} {m m1 : hash_map α} (h : m.clear = some m1) :
    m1.hashIndices = m.hashIndices := by
  unfold hash_map.clear at h
  rw [Option.map_eq_some'] at h
  obtain ⟨hp, -, hm1⟩ := h
  rw [← hm1]

lemma copyLoop_hashIndices {α : Type} (other : hash_map α) :
    ∀ (i : Nat) (acc acc1 : hash_map α),
      copyLoop other i acc = some acc1 → acc1.hashIndices = acc.hashIndices := by
  intro i
  induction i with
  | zero => intro acc acc1 h; cases h; rfl
  | succ i ih =>
    intro acc acc1 h
    rw [copyLoop] at h
    rw [Option.bind_eq_some] at h
    obtain ⟨accm, hm, h2⟩ := h
    have hmi : accm.hashIndices = acc.hashIndices := ih acc accm hm
    cases hh : other.heads[i]? with
    | none => rw [hh] at h2; simp at h2
    | some b =>
      rw [hh] at h2
      cases b with
      | none => cases h2; exact hmi
      | some a =>
        simp only at h2
        rw [Option.map_eq_some'] at h2
        obtain ⟨q, -, hacc1⟩ := h2
        rw [← hacc1]
        exact hmi

lemma copyCtor_hashIndices {α : Type} {other B : hash_map α}
    (h : copyCtor other = some B) : B.hashIndices = initIndices other.hashIndices := by
  unfold copyCtor at h
  exact copyLoop_hashIndices other _ _ B h

lemma copyAssign_hashIndices {α : Type} {self other B : hash_map α}
    (h : copyAssign self other = some B) :
    B.hashIndices = initIndices other.hashIndices := by
  unfold copyAssign at h
  rw [Option.map_eq_some'] at h
  obtain ⟨temp, htemp, hB⟩ := h
  rw [← hB]
  exact copyCtor_hashIndices htemp

end Rstd

namespace Rstd

lemma bucketCount_eq {α : Type} (m : hash_map α) : m.bucketCount = m.hashIndices := rfl

lemma newMap_hashIndices (α : Type) (s : Nat) :
    (newMap α s).hashIndices = initIndices s := rfl

lemma swapMaps_fst_hashIndices {α : Type} (m1 m2 : hash_map α) :
    (swapMaps m1 m2).1.hashIndices = m2.hashIndices := rfl

lemma swapMaps_snd_hashIndices {α : Type} (m1 m2 : hash_map α) :
    (swapMaps m1 m2).2.hashIndices = m1.hashIndices := rfl

lemma moveCtor_fst_hashIndices {α : Type} (m : hash_map α) :
    (moveCtor m).1.hashIndices = m.hashIndices := rfl

lemma moveCtor_snd_hashIndices {α : Type} (m : hash_map α) :
    (moveCtor m).2.hashIndices = 0 := rfl

lemma moveAssign_fst_hashIndices {α : Type} (m1 m2 : hash_map α) :
    (moveAssign m1 m2).1.hashIndices = m2.hashIndices := rfl

lemma moveAssign_snd_hashIndices {α : Type} (m1 m2 : hash_map α) :
    (moveAssign m1 m2).2.hashIndices = m1.hashIndices := rfl

/-- C9 counterexample: move-constructing from a freshly built map leaves the
source with bucketCount() equal to 0 — below 1 and not a power of two. -/
theorem C9_counterexample :
    (moveCtor (newMap Nat 256)).2.bucketCount = 0 := rfl

/-- C9 amended: bucketCount() is at least 1 and a power of two for every map
reachable through construction, access, assignment, erase, clear, copy
construction, copy assignment, swap, move assignment, and the destination of
a move construction; the source of a move construction, however, is left
with bucketCount() 0. -/
theorem C9_bucketCount_invariant {α : Type} [Inhabited α] :
    (∀ m : hash_map α, Reached α m →
      1 ≤ m.bucketCount ∧ ∃ j, m.bucketCount = 2 ^ j) ∧
    (∀ m : hash_map α, (moveCtor m).2.bucketCount = 0) := by
  constructor
  · intro m hr
    induction hr with
    | construct s =>
      rw [bucketCount_eq, newMap_hashIndices]
      exact initIndices_good s
    | access hm hop ih =>
      rw [bucketCount_eq] at ih ⊢
      rw [getOrInsert_hashIndices hop]
      exact ih
    | assign hm hop ih =>
      rw [bucketCount_eq] at ih ⊢
      rw [setVal_hashIndices hop]
      exact ih
    | eraseOp hm hop ih =>
      rw [bucketCount_eq] at ih ⊢
      rw [eraseKey_hashIndices hop]
      exact ih
    | clearOp hm hop ih =>
      rw [bucketCount_eq] at ih ⊢
      rw [clear_hashIndices hop]
      exact ih
    | copy hm hop ih =>
      rw [bucketCount_eq, copyCtor_hashIndices hop]
      exact initIndices_good _
    | copyAsgn hm1 hm2 hop ih1 ih2 =>
      rw [bucketCount_eq, copyAssign_hashIndices hop]
      exact initIndices_good _
    | swapFst hm1 hm2 ih1 ih2 =>
      rw [bucketCount_eq, swapMaps_fst_hashIndices]
      rw [bucketCount_eq] at ih2
      exact ih2
    | swapSnd hm1 hm2 ih1 ih2 =>
      rw [bucketCount_eq, swapMaps_snd_hashIndices]
      rw [bucketCount_eq] at ih1
      exact ih1
    | moveDst hm ih =>
      rw [bucketCount_eq, moveCtor_fst_hashIndices]
      rw [bucketCount_eq] at ih
      exact ih
    | moveAsgnFst hm1 hm2 ih1 ih2 =>
      rw [bucketCount_eq, moveAssign_fst_hashIndices]
      rw [bucketCount_eq] at ih2
      exact ih2
    | moveAsgnSnd hm1 hm2 ih1 ih2 =>
      rw [bucketCount_eq, moveAssign_snd_hashIndices]
      rw [bucketCount_eq] at ih1
      exact ih1
  · intro m
    rw [bucketCount_eq, moveCtor_snd_hashIndices]

theorem C9_witness :
    1 ≤ (newMap Nat 256).bucketCount ∧ ∃ j, (newMap Nat 256).bucketCount = 2 ^ j :=
  C9_bucketCount_invariant.1 (newMap Nat 256) (Reached.construct 256)

end Rstd

namespace Rstd

set_option maxRecDepth 1000000

lemma copyLoop_elementCount {α : Type} (other : hash_map α) :
    ∀ (i : Nat) (acc acc1 : hash_map α),
      copyLoop other i acc = some acc1 → acc1.elementCount = acc.elementCount := by
  intro i
  induction i with
  | zero => intro acc acc1 h; cases h; rfl
  | succ i ih =>
    intro acc acc1 h
    rw [copyLoop] at h
    rw [Option.bind_eq_some] at h
    obtain ⟨accm, hm, h2⟩ := h
    have hmi : accm.elementCount = acc.elementCount := ih acc accm hm
    cases hh : other.heads[i]? with
    | none => rw [hh] at h2; simp at h2
    | some b =>
      rw [hh] at h2
      cases b with
      | none => cases h2; exact hmi
      | some a =>
        simp only at h2
        rw [Option.map_eq_some'] at h2
        obtain ⟨q, -, hacc1⟩ := h2
        rw [← hacc1]
        exact hmi

lemma newMap_elementCount (α : Type) (s : Nat) : (newMap α s).elementCount = 0 := rfl

lemma copyCtor_elementCount {α : Type} {other B : hash_map α}
    (h : copyCtor other = some B) : B.elementCount = 0 := by
  unfold copyCtor at h
  rw [copyLoop_elementCount other _ _ B h]
  exact newMap_elementCount α other.hashIndices

lemma swapMaps_eq {α : Type} (m1 m2 : hash_map α) : swapMaps m1 m2 = (m2, m1) := by
  cases m1
  cases m2
  rfl

lemma copyAssign_eq_copyCtor {α : Type} (self other : hash_map α) :
    copyAssign self other = copyCtor other := by
  unfold copyAssign
  cases hc : copyCtor other with
  | none => rfl
  | some temp =>
    show (some temp).map (fun t => (swapMaps self t).1) = some temp
    rw [Option.map_some']
    rw [swapMaps_eq]

/-- C5: the copy constructor never copies `_elementCount`, so a copy of any
map — and therefore the target of a copy assignment, which copy-constructs a
temporary and swaps — reports size() 0 and empty() true even when the source
is non-empty, although its buckets do hold deep clones of the source's
chains. -/
theorem C5_copy_leaves_size_zero :
    (∀ (α : Type) (A B : hash_map α), copyCtor A = some B →
      B.size = 0 ∧ B.empty = true) ∧
    (∀ (α : Type) (self other : hash_map α), copyAssign self other = copyCtor other) ∧
    (copyCtor mapB = some mapBCopy ∧ mapB.size = 2 ∧ mapB.empty = false ∧
     mapBCopy.size = 0 ∧ mapBCopy.empty = true ∧
     chainEntries mapBCopy 1 = some [(1, 0), (257, 42)] ∧
     chainEntries mapB 1 = some [(1, 0), (257, 42)]) := by
  refine ⟨?_, fun α self other => copyAssign_eq_copyCtor self other, by decide⟩
  intro α A B h
  have hc := copyCtor_elementCount h
  unfold hash_map.size hash_map.empty
  rw [hc]
  exact ⟨rfl, rfl⟩

theorem C5_witness : mapBCopy.size = 0 ∧ mapBCopy.empty = true :=
  C5_copy_leaves_size_zero.1 Nat mapB mapBCopy (by decide)

end Rstd
